import Mathlib

/-!
Shallow embedding of the mc-trimmer container codec and compaction engine
(src/mc_trimmer/primitives.py, src/mc_trimmer/main.py, src/mc_trimmer/entities.py).

Bytes are modelled as `List Nat`; a well-formed byte has value < 256 (decoded
values always do, and theorems about byte-identity carry that hypothesis).
Python's stable `sorted(key=...)` is modelled with `List.insertionSort`, which
is a stable sort. Loops that append to accumulators are modelled as structural
recursions producing the same concatenations.
-/

/-- A byte string: list of byte values. -/
abbrev Bytes := List Nat

/-- Embeds `SerializableLocation` / `ChunkLocation` (primitives.py:120, main.py:89):
3-byte big-endian sector offset plus 1-byte sector size. -/
structure SerializableLocation where
  offset : Nat
  size : Nat
deriving DecidableEq, Repr

/-- Embeds `SerializableLocation.from_bytes`:
`struct.unpack(">IB", b"\x00" + data)` on a 4-byte slice, so
`offset = data[0]*2^16 + data[1]*2^8 + data[2]` and `size = data[3]`.
(`struct.unpack` additionally requires the slice to have exactly 4 bytes;
all call sites in scope slice exactly 4 bytes from an 8192-byte header.) -/
def SerializableLocation.from_bytes (data : Bytes) : SerializableLocation :=
  { offset := data.getD 0 0 * 65536 + data.getD 1 0 * 256 + data.getD 2 0
    size := data.getD 3 0 }

/-- Embeds `SerializableLocation.__bytes__`: `struct.pack(">IB", offset, size)[1:]`,
i.e. the low 3 bytes of the big-endian 32-bit offset followed by the size byte.
This is the value produced whenever `struct.pack` succeeds (offset < 2^32,
size < 2^8); see `SerializableLocation.to_bytesChecked` for the range check. -/
def SerializableLocation.to_bytes (l : SerializableLocation) : Bytes :=
  [l.offset / 65536 % 256, l.offset / 256 % 256, l.offset % 256, l.size % 256]

/-- Embeds `SerializableLocation.__bytes__` together with the range check that
`struct.pack(">IB", offset, size)` performs: `struct.error` (here `none`) when
`offset ≥ 2^32` or `size ≥ 2^8`. -/
def SerializableLocation.to_bytesChecked (l : SerializableLocation) : Option Bytes :=
  if l.offset < 4294967296 ∧ l.size < 256 then some l.to_bytes else none

/-- Embeds `Timestamp` (primitives.py:145, main.py:114): a 4-byte big-endian u32. -/
structure Timestamp where
  timestamp : Nat
deriving DecidableEq, Repr

/-- Embeds `Timestamp.from_bytes`: `struct.unpack(">I", data)` on a 4-byte slice. -/
def Timestamp.from_bytes (data : Bytes) : Timestamp :=
  { timestamp :=
      data.getD 0 0 * 16777216 + data.getD 1 0 * 65536 + data.getD 2 0 * 256 + data.getD 3 0 }

/-- Embeds `Timestamp.__bytes__`: `struct.pack(">I", timestamp)` (big-endian;
`struct.pack` succeeds exactly when `timestamp < 2^32`, which holds for every
decoded or zeroed timestamp). -/
def Timestamp.to_bytes (t : Timestamp) : Bytes :=
  [t.timestamp / 16777216 % 256, t.timestamp / 65536 % 256,
   t.timestamp / 256 % 256, t.timestamp % 256]

/-- Embeds `Chunk` (main.py:135) and `Entity` (entities.py:5): the part of the
object observable by serialization is `_compressed_data`, the raw sector-aligned
byte slice taken from the file (or `b""` for an empty slot).
`decompressed_data` is a pure function of these bytes (zlib) consulted only by
trim predicates, which are therefore modelled as arbitrary `Chunk → Bool`. -/
structure Chunk where
  compressedData : Bytes
deriving DecidableEq, Repr

/-- Embeds `Chunk.__bytes__` / `Entity.__bytes__`: returns `_compressed_data`. -/
def Chunk.to_bytes (c : Chunk) : Bytes := c.compressedData

/-- Embeds `Chunk.conditional_reset` (main.py:194) = `Entity.conditional_reset`
(entities.py:32): if the payload is non-empty and the predicate holds, clear it
and report `true`; otherwise leave the chunk as is and report `false`.
The predicate is never evaluated on an empty payload. -/
def Chunk.conditional_reset (c : Chunk) (condition : Chunk → Bool) : Chunk × Bool :=
  if c.compressedData ≠ [] then
    if condition c then (⟨[]⟩, true) else (c, false)
  else (c, false)

/-- Embeds `ChunkData` (main.py:221) and `ChunkDataBase` (primitives.py:170):
one slot of a container. -/
structure ChunkData where
  chunk : Chunk
  location : SerializableLocation
  timestamp : Timestamp
  index : Nat
deriving DecidableEq, Repr

/-- Embeds `ArrayOfSerializable.from_bytes` (primitives.py:107): the n slices
`data[i*size : (i+1)*size]` for `i < n`, realized by iterated take/drop
(`data.drop (i*size) |>.take size` computed incrementally). -/
def parseRecords (size : Nat) : Nat → Bytes → List Bytes
  | 0, _ => []
  | n + 1, data => data.take size :: parseRecords size n (data.drop size)

/-- Embeds the payload slice of `Region.__init__` (main.py:244) and
`EntitiesFile.__init__` (entities.py:57): for a used slot,
`data[offset*4096 : offset*4096 + size*4096]` of the whole file
(offsets are absolute sector numbers from the file start); an unused slot
gets the empty chunk `Chunk()`. `Chunk.from_bytes` stores the whole slice
as `compressed_data`. -/
def chunkFor (file : Bytes) (loc : SerializableLocation) : Chunk :=
  if 0 < loc.size then
    ⟨(file.drop (loc.offset * 4096)).take (loc.size * 4096)⟩
  else ⟨[]⟩

/-- Embeds the `for i, (loc, ts) in enumerate(zip(locations, timestamps))` slot
construction loop, producing one `ChunkData` per table entry with indices
counting up from `i`. -/
def buildChunkData (file : Bytes) : List (SerializableLocation × Timestamp) → Nat → List ChunkData
  | [], _ => []
  | (loc, ts) :: rest, i =>
    ⟨chunkFor file loc, loc, ts, i⟩ :: buildChunkData file rest (i + 1)

/-- Embeds `Region` (main.py:231): 1024 slots plus the dirty flag. -/
structure Region where
  chunk_data : List ChunkData
  dirty : Bool
deriving DecidableEq, Repr

/-- Embeds `Region.__init__`/`Region.from_file` (main.py:232, 269): parse 1024
4-byte locations from bytes 0..4096, 1024 4-byte timestamps from bytes
4096..8192, then build the slots from the whole file; `dirty` starts false. -/
def Region.from_bytes (file : Bytes) : Region :=
  let locs := (parseRecords 4 1024 file).map SerializableLocation.from_bytes
  let tss := (parseRecords 4 1024 (file.drop 4096)).map Timestamp.from_bytes
  { chunk_data := buildChunkData file (locs.zip tss) 0, dirty := false }

/-- Embeds `Region.trim` (main.py:264): run `conditional_reset` on every slot's
chunk and OR the results into `dirty`. -/
def Region.trim (r : Region) (condition : Chunk → Bool) : Region :=
  { chunk_data :=
      r.chunk_data.map fun cd => { cd with chunk := (cd.chunk.conditional_reset condition).1 }
    dirty := r.dirty || r.chunk_data.any fun cd => (cd.chunk.conditional_reset condition).2 }

/-- A session of successive `trim` calls, in order. -/
def Region.trimAll (r : Region) : List (Chunk → Bool) → Region
  | [] => r
  | c :: cs => (r.trim c).trimAll cs

/-- Python's stable `sorted(data, key=lambda combo: combo.location.offset)`
(main.py:285, primitives.py:190), modelled by the stable `insertionSort`. -/
def sortByOffset (l : List ChunkData) : List ChunkData :=
  l.insertionSort fun a b => a.location.offset ≤ b.location.offset

/-- Python's stable `sorted(data, key=lambda combo: combo.index)`
(main.py:302, primitives.py:208). -/
def sortByIndex (l : List ChunkData) : List ChunkData :=
  l.insertionSort fun a b => a.index ≤ b.index

instance : IsTotal ChunkData fun a b => a.location.offset ≤ b.location.offset :=
  ⟨fun a b => Nat.le_total a.location.offset b.location.offset⟩

instance : IsTrans ChunkData fun a b => a.location.offset ≤ b.location.offset :=
  ⟨fun _ _ _ hab hbc => Nat.le_trans hab hbc⟩

instance : IsTotal ChunkData fun a b => a.index ≤ b.index :=
  ⟨fun a b => Nat.le_total a.index b.index⟩

instance : IsTrans ChunkData fun a b => a.index ≤ b.index :=
  ⟨fun _ _ _ hab hbc => Nat.le_trans hab hbc⟩

/-- Embeds the compaction loop shared verbatim by `Region.__bytes__`
(main.py:284-299) and `RegionLike.to_bytes` (primitives.py:188-204):
visit the offset-sorted slots with a sector cursor (started at 2); set
`location.size = len(bytes(chunk)) // 4096`; a slot whose new size is 0 gets
`location.offset = 0` and `timestamp = 0`; otherwise the slot gets
`location.offset = cursor`, the cursor advances by the size, and the chunk
bytes are appended to the payload accumulator. Returns the updated slots
(in visit order) and the accumulated payload bytes. -/
def compactGo (cursor : Nat) : List ChunkData → List ChunkData × Bytes
  | [] => ([], [])
  | cd :: rest =>
    let len := cd.chunk.to_bytes.length
    let size := len / 4096
    if size = 0 then
      let r := compactGo cursor rest
      ({ cd with location := ⟨0, 0⟩, timestamp := ⟨0⟩ } :: r.1, r.2)
    else
      let r := compactGo (cursor + size) rest
      ({ cd with location := ⟨cursor, size⟩ } :: r.1, cd.chunk.to_bytes ++ r.2)

/-- Embeds `Region.__bytes__` (main.py:278-306): compaction pass over the
offset-sorted slots, then the index-sorted slots' locations and timestamps
are concatenated (4 bytes each) and the payload accumulator appended. -/
def Region.to_bytes (r : Region) : Bytes :=
  let p := compactGo 2 (sortByOffset r.chunk_data)
  let sorted := sortByIndex p.1
  (sorted.map fun cd => cd.location.to_bytes).flatten
    ++ (sorted.map fun cd => cd.timestamp.to_bytes).flatten
    ++ p.2

/-- Four zero bytes per missing table entry: `b"\x00\x00\x00\x00" * k`. -/
def zeroEntries (k : Nat) : Bytes := List.replicate (4 * k) 0

/-- Embeds the table-building loop of `RegionLike.to_bytes`
(primitives.py:206-218): `previous` starts at `2`; before each slot (in index
order) a pad of `cd.index - previous - 1` zero entries is emitted when
`cd.index - previous > 1` (Python int arithmetic, hence `Int` here); after the
loop `1024 - previous - 1` zero entries are appended. Returns the location and
timestamp tables. -/
def gapFill (previous : Int) : List ChunkData → Bytes × Bytes
  | [] =>
    (zeroEntries (1024 - previous - 1).toNat, zeroEntries (1024 - previous - 1).toNat)
  | cd :: rest =>
    let pad :=
      if (cd.index : Int) - previous > 1 then zeroEntries ((cd.index : Int) - previous - 1).toNat
      else []
    let r := gapFill (cd.index : Int) rest
    (pad ++ cd.location.to_bytes ++ r.1, pad ++ cd.timestamp.to_bytes ++ r.2)

/-- Embeds `RegionLike.to_bytes` (primitives.py:183-220): the same compaction
pass as `Region.__bytes__`, followed by the gap-filling table builder. -/
def RegionLike.to_bytes (data : List ChunkData) : Bytes :=
  let p := compactGo 2 (sortByOffset data)
  let t := gapFill 2 (sortByIndex p.1)
  t.1 ++ t.2 ++ p.2

/-- Embeds `EntitiesFile` (entities.py:47): the in-memory slot list, which holds
only the indices whose location has `size > 0` (sparse). -/
structure EntitiesFile where
  entity_data : List ChunkData
deriving DecidableEq, Repr

/-- Embeds `EntitiesFile.__init__`/`from_file` (entities.py:48-74): parse the
two tables like `Region`, but keep only slots with `loc.size > 0`. -/
def EntitiesFile.from_bytes (file : Bytes) : EntitiesFile :=
  let locs := (parseRecords 4 1024 file).map SerializableLocation.from_bytes
  let tss := (parseRecords 4 1024 (file.drop 4096)).map Timestamp.from_bytes
  ⟨(buildChunkData file (locs.zip tss) 0).filter fun cd => decide (0 < cd.location.size)⟩

/-- Embeds `EntitiesFile.__bytes__` (entities.py:63): `RegionLike.to_bytes`. -/
def EntitiesFile.to_bytes (e : EntitiesFile) : Bytes :=
  RegionLike.to_bytes e.entity_data

/-- Embeds `EntitiesFile.reset_chunk` (entities.py:76-78). The probe object is
built as `ChunkDataBase[Entity](Entity(), SerializableLocation(), Timestamp(), index=index)`,
but `SerializableLocation.__init__` requires the two positional arguments
`offset, size` and `Timestamp.__init__` requires `timestamp` (primitives.py:121,
146, no defaults), so the zero-argument calls raise `TypeError` before any
removal can happen: the method always fails, modelled as `none`. -/
def EntitiesFile.reset_chunk (_e : EntitiesFile) (_index : Nat) : Option EntitiesFile :=
  none

/-- An abstract file system: path (abstracted to `Nat`) to contents. -/
def FileSystem := Nat → Option Bytes

/-- Embeds `Region.save_to_file` (main.py:308-315): if the serialized length
exceeds 8192 (`CHUNK_LOCATION_DATA_SIZE + TIMESTAMPS_DATA_SIZE`), write the
bytes to the path; otherwise only `LOG.info(f"Deleting {region}")` runs — the
file system is left untouched (no file is removed). -/
def Region.save_to_file (r : Region) (fs : FileSystem) (path : Nat) : FileSystem :=
  let data := r.to_bytes
  if data.length > 4096 + 4096 then
    fun q => if q = path then some data else fs q
  else
    fs

/-! ### Fast field scan (primitives.py:223-235, `fast_get_property`) -/

/-- Embeds `Strategy` (primitives.py:52): tag byte, payload width, and whether
the `struct` format decodes the payload as a signed integer. Float strategies
are modelled at the bit level (the big-endian bit pattern of the payload);
the IEEE value those bits denote is outside the embedding. -/
structure Strategy where
  typ : Bytes
  payload_size : Nat
  signed : Bool
deriving DecidableEq, Repr

/-- Embeds `BYTE_STRATEGY` (`b"\x01"`, width 1, `>c`: the raw byte). -/
def BYTE_STRATEGY : Strategy := ⟨[1], 1, false⟩
/-- Embeds `INT_STRATEGY` (`b"\x03"`, width 4, `>i`: signed 32-bit). -/
def INT_STRATEGY : Strategy := ⟨[3], 4, true⟩
/-- Embeds `LONG_STRATEGY` (`b"\x04"`, width 8, `>Q`: unsigned 64-bit). -/
def LONG_STRATEGY : Strategy := ⟨[4], 8, false⟩
/-- Embeds `FLOAT_STRATEGY` (`b"\x05"`, width 4, `>f`: 32-bit float bits). -/
def FLOAT_STRATEGY : Strategy := ⟨[5], 4, false⟩
/-- Embeds `DOUBLE_STRATEGY` (`b"\x06"`, width 8, `>d`: 64-bit float bits). -/
def DOUBLE_STRATEGY : Strategy := ⟨[6], 8, false⟩

/-- `struct.pack(">H", n)` for `n < 2^16`: two big-endian bytes. -/
def u16be (n : Nat) : Bytes := [n / 256 % 256, n % 256]

/-- Big-endian value of a byte string. -/
def beNat (bs : Bytes) : Nat := bs.foldl (fun a b => a * 256 + b) 0

/-- `struct.unpack` of a big-endian fixed-width integer: unsigned value, or
two's-complement reinterpretation when the format is signed. -/
def unpackBE (signed : Bool) (bs : Bytes) : Int :=
  if signed ∧ 2 ^ (8 * bs.length - 1) ≤ beNat bs then
    (beNat bs : Int) - 2 ^ (8 * bs.length)
  else (beNat bs : Int)

/-- The scanned byte pattern `strategy.typ + struct.pack(">H", len(name)) + name`. -/
def propSeq (name : Bytes) (s : Strategy) : Bytes := s.typ ++ u16be name.length ++ name

/-- Embeds Python `bytes.find`: index of the first occurrence of `seq` as a
contiguous subsequence, `none` (Python `-1`) when absent. -/
def findSeq (seq : Bytes) : Bytes → Option Nat
  | [] => if seq = [] then some 0 else none
  | b :: rest =>
    if (b :: rest).take seq.length = seq then some 0
    else (findSeq seq rest).map (· + 1)

/-- The two failure modes of `fast_get_property`: the
`Exception(f"Prop ... not found!")` raise, and the `struct.error` that
`struct.unpack` raises when fewer than `payload_size` bytes follow the match. -/
inductive PropError where
  | fieldNotFound
  | unpackError
deriving DecidableEq, Repr

/-- Embeds `fast_get_property` (primitives.py:223-235): find the first
occurrence of `propSeq`, raise "not found" if absent, else `struct.unpack` the
following `payload_size` bytes. -/
def fast_get_property (decompressed_data name : Bytes) (strategy : Strategy) :
    Except PropError Int :=
  match findSeq (propSeq name strategy) decompressed_data with
  | none => Except.error PropError.fieldNotFound
  | some start =>
    let slice :=
      (decompressed_data.drop (start + (propSeq name strategy).length)).take
        strategy.payload_size
    if slice.length = strategy.payload_size then
      Except.ok (unpackBE strategy.signed slice)
    else Except.error PropError.unpackError

/-- `seq` occurs in `data` at position `i`. -/
def OccursAt (seq data : Bytes) (i : Nat) : Prop := (data.drop i).take seq.length = seq

instance (seq data : Bytes) (i : Nat) : Decidable (OccursAt seq data i) :=
  inferInstanceAs (Decidable ((data.drop i).take seq.length = seq))

/-! ### Specification-side predicates used to state the claims -/

/-- Unused slots of an own-compaction layout: `size = 0` forces zero offset and
timestamp. -/
def UnusedZeroed (l : List ChunkData) : Prop :=
  ∀ cd ∈ l, cd.location.size = 0 → cd.location.offset = 0 ∧ cd.timestamp.timestamp = 0

/-- The used slots of `l`, taken in list order, occupy contiguous sectors
starting at sector `c` (location data only; unused slots are skipped). -/
def packedFrom (c : Nat) : List ChunkData → Bool
  | [] => true
  | cd :: rest =>
    if cd.location.size = 0 then packedFrom c rest
    else decide (cd.location.offset = c) && packedFrom (c + cd.location.size) rest

/-- The slots with a non-empty payload, taken in list order, have their
locations at contiguous sectors starting at `c`. -/
def contiguousFrom (c : Nat) : List ChunkData → Bool
  | [] => true
  | cd :: rest =>
    if cd.chunk.compressedData = [] then contiguousFrom c rest
    else decide (cd.location.offset = c) && contiguousFrom (c + cd.location.size) rest

/-- Total sector count of a slot list's locations. -/
def totalSize (l : List ChunkData) : Nat := (l.map fun cd => cd.location.size).sum

/-- The chunk a given slot holds after a sequence of `conditional_reset` calls. -/
def chunkTrims (c : Chunk) : List (Chunk → Bool) → Chunk
  | [] => c
  | p :: ps => chunkTrims (c.conditional_reset p).1 ps

/-- A slot's payload was cleared over a sequence of trim predicates: it was
non-empty before and is empty afterwards. -/
def clearedBy (c : Chunk) (ps : List (Chunk → Bool)) : Bool :=
  !c.compressedData.isEmpty && (chunkTrims c ps).compressedData.isEmpty

/-- `n` unused slots with indices `i, i+1, ...`, as produced by parsing
all-zero table entries. -/
def emptySlots (i n : Nat) : List ChunkData :=
  (List.range' i n).map fun j => ⟨⟨[]⟩, ⟨0, 0⟩, ⟨0⟩, j⟩

/-! ### Concrete containers used by witnesses and counterexamples -/

/-- An 8192-byte container file with all table entries zero: 1024 unused
slots, no payload sectors. -/
def zeroFile : Bytes := List.replicate 8192 0

/-- A 4096-byte payload sector whose chunk header declares length 0x1000 and
compression scheme 2 (the only scheme `Chunk.from_bytes` accepts). -/
def payloadC : Bytes := [0, 0, 16, 0, 2] ++ List.replicate 4091 0

/-- A compact region file: slot 7 used at offset 2, size 1 sector, timestamp
0x01020304; all other slots unused; payload sectors immediately follow the
tables with no gap. -/
def fileC : Bytes :=
  (List.replicate 28 0 ++ [0, 0, 2, 1] ++ List.replicate 4064 0)
    ++ (List.replicate 28 0 ++ [1, 2, 3, 4] ++ List.replicate 4064 0)
    ++ payloadC

/-- A loadable but non-compact region file: slot 0 used at offset 3, size 1,
leaving sector 2 as an unused gap (16384 bytes total). -/
def fileGap : Bytes :=
  ([0, 0, 3, 1] ++ List.replicate 4092 0)
    ++ List.replicate 4096 0
    ++ List.replicate 4096 0
    ++ payloadC

/-- An entities container file whose only populated slot is index 1
(offset 2, size 1, timestamp 7): the in-memory entity list is the sparse
singleton `[index 1]`. -/
def fileSparse : Bytes :=
  (List.replicate 4 0 ++ [0, 0, 2, 1] ++ List.replicate 4088 0)
    ++ (List.replicate 4 0 ++ [0, 0, 0, 7] ++ List.replicate 4088 0)
    ++ payloadC

/-- A file system holding one file (contents `[42]`) at path 0. -/
def fs0 : FileSystem := fun p => if p = 0 then some [42] else none

/-! ### Basic lemmas: codecs and table parsing -/

theorem SerializableLocation.to_bytes_from_bytes (b0 b1 b2 b3 : Nat) (h0 : b0 < 256)
    (h1 : b1 < 256) (h2 : b2 < 256) (h3 : b3 < 256) :
    (SerializableLocation.from_bytes [b0, b1, b2, b3]).to_bytes = [b0, b1, b2, b3] := by
  simp only [SerializableLocation.from_bytes, SerializableLocation.to_bytes,
    List.getD_cons_zero, List.getD_cons_succ, List.cons.injEq, and_true]
  refine ⟨?_, ?_, ?_, ?_⟩ <;> omega

theorem Timestamp.to_bytes_of_from_bytes (b0 b1 b2 b3 : Nat) (h0 : b0 < 256)
    (h1 : b1 < 256) (h2 : b2 < 256) (h3 : b3 < 256) :
    (Timestamp.from_bytes [b0, b1, b2, b3]).to_bytes = [b0, b1, b2, b3] := by
  simp only [Timestamp.from_bytes, Timestamp.to_bytes,
    List.getD_cons_zero, List.getD_cons_succ, List.cons.injEq, and_true]
  refine ⟨?_, ?_, ?_, ?_⟩ <;> omega

theorem parseRecords_length (s : Nat) : ∀ (n : Nat) (d : Bytes), (parseRecords s n d).length = n
  | 0, _ => rfl
  | n + 1, d => by simp [parseRecords, parseRecords_length s n]

theorem parseRecords_flatten (s : Nat) :
    ∀ (n : Nat) (d : Bytes), (parseRecords s n d).flatten = d.take (s * n)
  | 0, d => by simp [parseRecords]
  | n + 1, d => by
    simp only [parseRecords, List.flatten_cons, parseRecords_flatten s n]
    rw [← List.take_add]
    congr 1
    ring

theorem parseRecords_mem_length (s : Nat) :
    ∀ (n : Nat) (d : Bytes), s * n ≤ d.length → ∀ x ∈ parseRecords s n d, x.length = s
  | 0, _, _ => by simp [parseRecords]
  | n + 1, d, h => by
    have hms : s * (n + 1) = s * n + s := by ring
    simp only [parseRecords, List.mem_cons]
    rintro x (rfl | hx)
    · simp only [List.length_take]
      omega
    · refine parseRecords_mem_length s n (d.drop s) ?_ x hx
      simp only [List.length_drop]
      omega

theorem parseRecords_mem_mem (s : Nat) :
    ∀ (n : Nat) (d : Bytes), ∀ x ∈ parseRecords s n d, ∀ b ∈ x, b ∈ d
  | 0, _ => by simp [parseRecords]
  | n + 1, d => by
    simp only [parseRecords, List.mem_cons]
    rintro x (rfl | hx) b hb
    · exact List.mem_of_mem_take hb
    · exact List.mem_of_mem_drop (parseRecords_mem_mem s n (d.drop s) x hx b hb)

theorem parseRecords_cons (s n : Nat) (xs ys : Bytes) (h : xs.length = s) :
    parseRecords s (n + 1) (xs ++ ys) = xs :: parseRecords s n ys := by
  simp [parseRecords, List.take_left' h, List.drop_left' h]

theorem parseRecords_zeros :
    ∀ (k n : Nat) (rest : Bytes), k ≤ n →
      parseRecords 4 n (List.replicate (4 * k) 0 ++ rest)
        = List.replicate k [0, 0, 0, 0] ++ parseRecords 4 (n - k) rest
  | 0, n, rest, _ => by simp
  | k + 1, 0, _, h => absurd h (by omega)
  | k + 1, n + 1, rest, h => by
    have h4 : 4 * (k + 1) = 4 + 4 * k := by ring
    rw [h4, List.replicate_add, List.append_assoc,
      parseRecords_cons 4 n (List.replicate 4 0) _ (by simp),
      parseRecords_zeros k n rest (by omega), Nat.succ_sub_succ]
    simp [List.replicate_succ]

/-! ### Basic lemmas: slot construction -/

theorem buildChunkData_length (f : Bytes) :
    ∀ (ps : List (SerializableLocation × Timestamp)) (i : Nat),
      (buildChunkData f ps i).length = ps.length
  | [], _ => rfl
  | (_, _) :: rest, i => by simp [buildChunkData, buildChunkData_length f rest]

theorem buildChunkData_append (f : Bytes) :
    ∀ (ps qs : List (SerializableLocation × Timestamp)) (i : Nat),
      buildChunkData f (ps ++ qs) i
        = buildChunkData f ps i ++ buildChunkData f qs (i + ps.length)
  | [], qs, i => by simp [buildChunkData]
  | (l, t) :: rest, qs, i => by
    have hi : i + 1 + rest.length = i + (rest.length + 1) := by omega
    have ih := buildChunkData_append f rest qs (i + 1)
    rw [hi] at ih
    simp only [List.cons_append, buildChunkData, List.length_cons]
    exact congrArg _ ih

theorem emptySlots_succ (i n : Nat) :
    emptySlots i (n + 1) = ⟨⟨[]⟩, ⟨0, 0⟩, ⟨0⟩, i⟩ :: emptySlots (i + 1) n := by
  simp [emptySlots, List.range'_succ]

theorem buildChunkData_zeros (f : Bytes) :
    ∀ (n i : Nat),
      buildChunkData f (List.replicate n ((⟨0, 0⟩, ⟨0⟩) : SerializableLocation × Timestamp)) i
        = emptySlots i n
  | 0, i => by simp [buildChunkData, emptySlots]
  | n + 1, i => by
    simp only [List.replicate_succ, buildChunkData, buildChunkData_zeros f n (i + 1),
      emptySlots_succ]
    rfl

theorem buildChunkData_map_index (f : Bytes) :
    ∀ (ps : List (SerializableLocation × Timestamp)) (i : Nat),
      (buildChunkData f ps i).map (fun cd => cd.index) = List.range' i ps.length
  | [], _ => rfl
  | (_, _) :: rest, i => by
    simp [buildChunkData, buildChunkData_map_index f rest (i + 1), List.range'_succ]

theorem buildChunkData_map_location (f : Bytes) :
    ∀ (ps : List (SerializableLocation × Timestamp)) (i : Nat),
      (buildChunkData f ps i).map (fun cd => cd.location) = ps.map Prod.fst
  | [], _ => rfl
  | (_, _) :: rest, i => by
    simp [buildChunkData, buildChunkData_map_location f rest (i + 1)]

theorem buildChunkData_map_timestamp (f : Bytes) :
    ∀ (ps : List (SerializableLocation × Timestamp)) (i : Nat),
      (buildChunkData f ps i).map (fun cd => cd.timestamp) = ps.map Prod.snd
  | [], _ => rfl
  | (_, _) :: rest, i => by
    simp [buildChunkData, buildChunkData_map_timestamp f rest (i + 1)]

theorem buildChunkData_chunk (f : Bytes) :
    ∀ (ps : List (SerializableLocation × Timestamp)) (i : Nat),
      ∀ cd ∈ buildChunkData f ps i, cd.chunk = chunkFor f cd.location
  | [], _ => by simp [buildChunkData]
  | (l, t) :: rest, i => by
    simp only [buildChunkData, List.mem_cons]
    rintro cd (rfl | hcd)
    · rfl
    · exact buildChunkData_chunk f rest (i + 1) cd hcd

theorem emptySlots_mem (i n : Nat) :
    ∀ cd ∈ emptySlots i n, cd.chunk = ⟨[]⟩ ∧ cd.location = ⟨0, 0⟩ ∧ cd.timestamp = ⟨0⟩ := by
  intro cd hcd
  simp only [emptySlots, List.mem_map] at hcd
  obtain ⟨j, _, rfl⟩ := hcd
  exact ⟨rfl, rfl, rfl⟩

/-! ### Lemmas about trimming -/

theorem Chunk.conditional_reset_empty (c : Chunk) (cond : Chunk → Bool)
    (h : c.compressedData = []) : c.conditional_reset cond = (c, false) := by
  simp [Chunk.conditional_reset, h]

theorem Chunk.conditional_reset_false (c : Chunk) (cond : Chunk → Bool)
    (h : cond c = false) : c.conditional_reset cond = (c, false) := by
  by_cases he : c.compressedData = []
  · exact Chunk.conditional_reset_empty c cond he
  · simp [Chunk.conditional_reset, he, h]

theorem chunkTrims_empty : ∀ (ps : List (Chunk → Bool)) (c : Chunk),
    c.compressedData = [] → chunkTrims c ps = c
  | [], _, _ => rfl
  | p :: ps, c, h => by
    rw [chunkTrims, Chunk.conditional_reset_empty c p h]
    exact chunkTrims_empty ps c h

theorem Region.trimAll_chunk_data : ∀ (ps : List (Chunk → Bool)) (r : Region),
    (r.trimAll ps).chunk_data
      = r.chunk_data.map fun cd => { cd with chunk := chunkTrims cd.chunk ps }
  | [], r => by
    have he : (fun cd : ChunkData => { cd with chunk := chunkTrims cd.chunk [] }) = id :=
      funext fun cd => rfl
    simp [Region.trimAll, he]
  | p :: ps, r => by
    rw [Region.trimAll, Region.trimAll_chunk_data ps, Region.trim]
    simp only [List.map_map]
    rfl

theorem any_or_distrib {α : Type} (f g : α → Bool) :
    ∀ l : List α, (l.any fun x => f x || g x) = (l.any f || l.any g)
  | [] => rfl
  | a :: l => by
    rw [List.any_cons, List.any_cons, List.any_cons, any_or_distrib f g l]
    cases f a <;> cases g a <;> cases l.any f <;> cases l.any g <;> rfl

theorem any_congr_mem {α : Type} {f g : α → Bool} :
    ∀ {l : List α}, (∀ x ∈ l, f x = g x) → l.any f = l.any g
  | [], _ => rfl
  | a :: l, h => by
    rw [List.any_cons, List.any_cons, h a (List.mem_cons_self a l),
      any_congr_mem fun x hx => h x (List.mem_cons_of_mem a hx)]

theorem clearedBy_step (c : Chunk) (p : Chunk → Bool) (ps : List (Chunk → Bool)) :
    ((c.conditional_reset p).2 || clearedBy (c.conditional_reset p).1 ps)
      = clearedBy c (p :: ps) := by
  by_cases h : c.compressedData = []
  · rw [Chunk.conditional_reset_empty c p h]
    simp [clearedBy, chunkTrims, Chunk.conditional_reset_empty c p h, h]
  · by_cases hp : p c
    · have hr : c.conditional_reset p = (⟨[]⟩, true) := by
        simp [Chunk.conditional_reset, h, hp]
      rw [hr]
      simp [clearedBy, chunkTrims, hr, chunkTrims_empty ps ⟨[]⟩ rfl, h]
    · have hr : c.conditional_reset p = (c, false) := by
        simp [Chunk.conditional_reset, h, hp]
      rw [hr]
      simp [clearedBy, chunkTrims, hr]

theorem Region.trimAll_dirty : ∀ (ps : List (Chunk → Bool)) (r : Region),
    (r.trimAll ps).dirty = (r.dirty || r.chunk_data.any fun cd => clearedBy cd.chunk ps)
  | [], r => by
    have h : (r.chunk_data.any fun cd => clearedBy cd.chunk []) = false := by
      refine List.any_eq_false.mpr fun cd _ => ?_
      simp [clearedBy, chunkTrims]
    rw [Region.trimAll, h, Bool.or_false]
  | p :: ps, r => by
    rw [Region.trimAll, Region.trimAll_dirty ps, Region.trim]
    simp only [List.any_map]
    rw [show ((fun cd : ChunkData => clearedBy cd.chunk ps) ∘ fun cd : ChunkData =>
        { cd with chunk := (cd.chunk.conditional_reset p).1 })
        = fun cd : ChunkData => clearedBy (cd.chunk.conditional_reset p).1 ps from rfl]
    rw [Bool.or_assoc, ← any_or_distrib]
    congr 1
    exact any_congr_mem fun cd _ => clearedBy_step cd.chunk p ps

/-! ### Lemmas about the compaction pass -/

theorem totalSize_cons (cd : ChunkData) (l : List ChunkData) :
    totalSize (cd :: l) = cd.location.size + totalSize l := by
  simp [totalSize]

theorem packedFrom_bounds : ∀ (l : List ChunkData) (c : Nat), packedFrom c l = true →
    ∀ cd ∈ l, 0 < cd.location.size →
      c ≤ cd.location.offset ∧ cd.location.offset + cd.location.size ≤ c + totalSize l
  | [], _, _ => by simp
  | x :: l, c, h => by
    rw [packedFrom] at h
    by_cases hx : x.location.size = 0
    · rw [if_pos hx] at h
      intro cd hcd hpos
      rcases List.mem_cons.mp hcd with rfl | hcd
      · omega
      · have := packedFrom_bounds l c h cd hcd hpos
        rw [totalSize_cons]
        omega
    · rw [if_neg hx, Bool.and_eq_true, decide_eq_true_eq] at h
      obtain ⟨hoff, hrest⟩ := h
      intro cd hcd hpos
      rcases List.mem_cons.mp hcd with rfl | hcd
      · rw [totalSize_cons]
        omega
      · have := packedFrom_bounds l (c + x.location.size) hrest cd hcd hpos
        rw [totalSize_cons]
        omega

theorem compactGo_fixed : ∀ (l : List ChunkData) (c : Nat),
    packedFrom c l = true →
    (∀ cd ∈ l, cd.location.size = 0 →
      cd.chunk.compressedData = [] ∧ cd.location = ⟨0, 0⟩ ∧ cd.timestamp = ⟨0⟩) →
    (∀ cd ∈ l, 0 < cd.location.size →
      cd.chunk.compressedData.length = cd.location.size * 4096) →
    compactGo c l = (l, (l.map fun cd => cd.chunk.compressedData).flatten)
  | [], c, _, _, _ => by simp [compactGo]
  | x :: l, c, hp, h0, hpos => by
    rw [packedFrom] at hp
    by_cases hx : x.location.size = 0
    · obtain ⟨hxe, hxl, hxt⟩ := h0 x (List.mem_cons_self x l) hx
      rw [if_pos hx] at hp
      have ih := compactGo_fixed l c hp
        (fun cd hcd => h0 cd (List.mem_cons_of_mem x hcd))
        (fun cd hcd => hpos cd (List.mem_cons_of_mem x hcd))
      rw [compactGo]
      simp only [Chunk.to_bytes, hxe, List.length_nil, Nat.zero_div, if_pos rfl, ih]
      have hxx : ({ x with location := ⟨0, 0⟩, timestamp := ⟨0⟩ } : ChunkData) = x := by
        cases x
        simp_all
      rw [hxx]
      simp [hxe]
    · have hxp : 0 < x.location.size := Nat.pos_of_ne_zero hx
      have hlen := hpos x (List.mem_cons_self x l) hxp
      rw [if_neg hx, Bool.and_eq_true, decide_eq_true_eq] at hp
      obtain ⟨hoff, hrest⟩ := hp
      have ih := compactGo_fixed l (c + x.location.size) hrest
        (fun cd hcd => h0 cd (List.mem_cons_of_mem x hcd))
        (fun cd hcd => hpos cd (List.mem_cons_of_mem x hcd))
      rw [compactGo]
      have hdiv : x.chunk.to_bytes.length / 4096 = x.location.size := by
        rw [Chunk.to_bytes, hlen]
        omega
      simp only [hdiv, if_neg hx, ih]
      have hxx : ({ x with location := ⟨c, x.location.size⟩ } : ChunkData) = x := by
        cases x
        simp_all [← hoff]
      rw [hxx]
      simp [Chunk.to_bytes]

theorem flatten_payloads (f : Bytes) : ∀ (l : List ChunkData) (c : Nat),
    packedFrom c l = true →
    (∀ cd ∈ l, cd.location.size = 0 → cd.chunk.compressedData = []) →
    (∀ cd ∈ l, 0 < cd.location.size →
      cd.chunk.compressedData
        = (f.drop (cd.location.offset * 4096)).take (cd.location.size * 4096)) →
    f.length = 4096 * c + 4096 * totalSize l →
    (l.map fun cd => cd.chunk.compressedData).flatten = f.drop (c * 4096)
  | [], c, _, _, _, hlen => by
    have : f.length ≤ c * 4096 := by simp [totalSize] at hlen; omega
    simp [List.drop_eq_nil_of_le this]
  | x :: l, c, hp, h0, hsl, hlen => by
    rw [packedFrom] at hp
    rw [totalSize_cons] at hlen
    by_cases hx : x.location.size = 0
    · rw [if_pos hx] at hp
      have ih := flatten_payloads f l c hp
        (fun cd hcd => h0 cd (List.mem_cons_of_mem x hcd))
        (fun cd hcd => hsl cd (List.mem_cons_of_mem x hcd))
        (by omega)
      simp [h0 x (List.mem_cons_self x l) hx, ih]
    · have hxp : 0 < x.location.size := Nat.pos_of_ne_zero hx
      rw [if_neg hx, Bool.and_eq_true, decide_eq_true_eq] at hp
      obtain ⟨hoff, hrest⟩ := hp
      have ih := flatten_payloads f l (c + x.location.size) hrest
        (fun cd hcd => h0 cd (List.mem_cons_of_mem x hcd))
        (fun cd hcd => hsl cd (List.mem_cons_of_mem x hcd))
        (by omega)
      simp only [List.map_cons, List.flatten_cons, ih,
        hsl x (List.mem_cons_self x l) hxp, hoff]
      rw [show (c + x.location.size) * 4096 = c * 4096 + x.location.size * 4096 by ring,
        ← List.drop_drop, List.take_append_drop]

/-! ### Lemmas about the stable sorts -/

theorem sorted_perm_eq_strict :
    ∀ (l t : List ChunkData), l.Perm t → l.Sorted (fun a b => a.index ≤ b.index) →
      t.Pairwise (fun a b => a.index < b.index) → l = t
  | [], t, hperm, _, _ => hperm.nil_eq
  | a :: u, [], hperm, _, _ => absurd (List.perm_nil.mp hperm) (by simp)
  | a :: u, b :: v, hperm, hsort, hpair => by
    have hab : a = b := by
      have hb : b ∈ a :: u := hperm.mem_iff.mpr (List.mem_cons_self b v)
      have ha : a ∈ b :: v := hperm.mem_iff.mp (List.mem_cons_self a u)
      rcases List.mem_cons.mp hb with rfl | hbu
      · rfl
      rcases List.mem_cons.mp ha with rfl | hav
      · rfl
      · have h1 : a.index ≤ b.index := (List.sorted_cons.mp hsort).1 b hbu
        have h2 : b.index < a.index := (List.pairwise_cons.mp hpair).1 a hav
        omega
    subst hab
    have := sorted_perm_eq_strict u v hperm.cons_inv
      (List.sorted_cons.mp hsort).2 (List.pairwise_cons.mp hpair).2
    rw [this]

theorem orderedInsert_last {α : Type} (r : α → α → Prop) [DecidableRel r] :
    ∀ (l : List α) (a : α), (∀ b ∈ l, ¬r a b) → List.orderedInsert r a l = l ++ [a]
  | [], _, _ => rfl
  | b :: l, a, h => by
    rw [List.orderedInsert, if_neg (h b (List.mem_cons_self b l)),
      orderedInsert_last r l a fun x hx => h x (List.mem_cons_of_mem b hx), List.cons_append]

theorem insertionSort_least_front {α : Type} (r : α → α → Prop) [DecidableRel r] :
    ∀ (front l : List α), (∀ a ∈ front, ∀ b, r a b) →
      List.insertionSort r (front ++ l) = front ++ List.insertionSort r l
  | [], _, _ => rfl
  | a :: front, l, h => by
    rw [List.cons_append, List.insertionSort,
      insertionSort_least_front r front l fun x hx b =>
        h x (List.mem_cons_of_mem a hx) b]
    cases hfl : front ++ List.insertionSort r l with
    | nil => rw [List.cons_append, hfl]; simp [List.orderedInsert]
    | cons x rest =>
      rw [List.cons_append, hfl, List.orderedInsert,
        if_pos (h a (List.mem_cons_self a front) x)]

theorem sortByOffset_filter (l : List ChunkData) (v : Nat) :
    (sortByOffset l).filter (fun cd => decide (cd.location.offset = v))
      = l.filter fun cd => decide (cd.location.offset = v) := by
  have hfself : (l.filter fun cd => decide (cd.location.offset = v)).filter
      (fun cd => decide (cd.location.offset = v))
      = l.filter fun cd => decide (cd.location.offset = v) := by
    refine List.filter_eq_self.mpr fun a ha => (List.mem_filter.mp ha).2
  have hsub : (l.filter fun cd => decide (cd.location.offset = v)).Sublist (sortByOffset l) := by
    refine List.sublist_insertionSort ?_ (List.filter_sublist l)
    refine List.pairwise_of_forall_mem_list fun a ha b hb => ?_
    have ha2 : a.location.offset = v := by
      have := (List.mem_filter.mp ha).2
      simpa using this
    have hb2 : b.location.offset = v := by
      have := (List.mem_filter.mp hb).2
      simpa using this
    omega
  have h1 := List.Sublist.filter (fun cd => decide (cd.location.offset = v)) hsub
  rw [hfself] at h1
  have h2 : ((sortByOffset l).filter fun cd => decide (cd.location.offset = v)).Perm
      (l.filter fun cd => decide (cd.location.offset = v)) :=
    (List.perm_insertionSort _ l).filter _
  exact (h1.eq_of_length h2.length_eq.symm).symm

/-! ### Round-trip serialization for containers in own-compaction layout -/

theorem SerializableLocation.round_len4 (s : Bytes) (h : s.length = 4)
    (hb : ∀ b ∈ s, b < 256) : (SerializableLocation.from_bytes s).to_bytes = s := by
  rcases s with _ | ⟨b0, s⟩
  · simp at h
  rcases s with _ | ⟨b1, s⟩
  · simp at h
  rcases s with _ | ⟨b2, s⟩
  · simp at h
  rcases s with _ | ⟨b3, s⟩
  · simp at h
  have hs : s = [] := by
    simp only [List.length_cons] at h
    exact List.length_eq_zero.mp (by omega)
  subst hs
  exact SerializableLocation.to_bytes_from_bytes b0 b1 b2 b3
    (hb b0 (by simp)) (hb b1 (by simp)) (hb b2 (by simp)) (hb b3 (by simp))

theorem Timestamp.round_length4 (s : Bytes) (h : s.length = 4)
    (hb : ∀ b ∈ s, b < 256) : (Timestamp.from_bytes s).to_bytes = s := by
  rcases s with _ | ⟨b0, s⟩
  · simp at h
  rcases s with _ | ⟨b1, s⟩
  · simp at h
  rcases s with _ | ⟨b2, s⟩
  · simp at h
  rcases s with _ | ⟨b3, s⟩
  · simp at h
  have hs : s = [] := by
    simp only [List.length_cons] at h
    exact List.length_eq_zero.mp (by omega)
  subst hs
  exact Timestamp.to_bytes_of_from_bytes b0 b1 b2 b3
    (hb b0 (by simp)) (hb b1 (by simp)) (hb b2 (by simp)) (hb b3 (by simp))

theorem Region.trim_no_match (r : Region) (cond : Chunk → Bool)
    (h : ∀ cd ∈ r.chunk_data, cond cd.chunk = false) : r.trim cond = r := by
  have hmap : (r.chunk_data.map fun cd =>
      { cd with chunk := (cd.chunk.conditional_reset cond).1 }) = r.chunk_data := by
    rw [List.map_congr_left fun cd hcd => ?_, List.map_id]
    rw [Chunk.conditional_reset_false cd.chunk cond (h cd hcd)]
    rfl
  have hany : (r.chunk_data.any fun cd => (cd.chunk.conditional_reset cond).2) = false := by
    refine List.any_eq_false.mpr fun cd hcd => ?_
    rw [Chunk.conditional_reset_false cd.chunk cond (h cd hcd)]
    simp
  cases r with
  | mk data dirty => simp [Region.trim, hmap, hany]

theorem Region.from_bytes_def (file : Bytes) :
    Region.from_bytes file
      = { chunk_data := buildChunkData file
            (((parseRecords 4 1024 file).map SerializableLocation.from_bytes).zip
              ((parseRecords 4 1024 (file.drop 4096)).map Timestamp.from_bytes)) 0
          dirty := false } := rfl

theorem region_chunk_data_locations (file : Bytes) :
    (Region.from_bytes file).chunk_data.map (fun cd => cd.location)
      = (parseRecords 4 1024 file).map SerializableLocation.from_bytes := by
  rw [Region.from_bytes_def]
  refine (buildChunkData_map_location file _ 0).trans ?_
  exact List.map_fst_zip _ _ (by simp [parseRecords_length])

theorem region_chunk_data_timestamps (file : Bytes) :
    (Region.from_bytes file).chunk_data.map (fun cd => cd.timestamp)
      = (parseRecords 4 1024 (file.drop 4096)).map Timestamp.from_bytes := by
  rw [Region.from_bytes_def]
  refine (buildChunkData_map_timestamp file _ 0).trans ?_
  exact List.map_snd_zip _ _ (by simp [parseRecords_length])

theorem zip_len_1024 (file : Bytes) :
    (((parseRecords 4 1024 file).map SerializableLocation.from_bytes).zip
      ((parseRecords 4 1024 (file.drop 4096)).map Timestamp.from_bytes)).length = 1024 := by
  rw [List.length_zip, List.length_map, List.length_map, parseRecords_length 4,
    parseRecords_length 4, Nat.min_self]

theorem region_chunk_data_indices (file : Bytes) :
    (Region.from_bytes file).chunk_data.map (fun cd => cd.index) = List.range' 0 1024 := by
  rw [Region.from_bytes_def]
  rw [buildChunkData_map_index file _ 0, zip_len_1024 file]

theorem region_chunk_data_chunks (file : Bytes) :
    ∀ cd ∈ (Region.from_bytes file).chunk_data, cd.chunk = chunkFor file cd.location := by
  rw [Region.from_bytes_def]
  exact buildChunkData_chunk file _ 0

theorem region_roundtrip (file : Bytes)
    (h8 : 8192 ≤ file.length)
    (hbyte : ∀ b ∈ file, b < 256)
    (hunused : UnusedZeroed (Region.from_bytes file).chunk_data)
    (hpacked : packedFrom 2 (sortByOffset (Region.from_bytes file).chunk_data) = true)
    (hlen : file.length = 8192 + 4096 * totalSize (Region.from_bytes file).chunk_data) :
    (Region.from_bytes file).to_bytes = file := by
  set slots := (Region.from_bytes file).chunk_data with hslots
  set s := sortByOffset slots with hs
  have hperm : s.Perm slots := List.perm_insertionSort _ slots
  have htot : totalSize s = totalSize slots := by
    have := (hperm.map fun cd => cd.location.size).sum_eq
    simpa [totalSize] using this
  have hch : ∀ cd ∈ slots, cd.chunk = chunkFor file cd.location := region_chunk_data_chunks file
  have h0 : ∀ cd ∈ slots, cd.location.size = 0 →
      cd.chunk.compressedData = [] ∧ cd.location = ⟨0, 0⟩ ∧ cd.timestamp = ⟨0⟩ := by
    intro cd hcd hsz
    obtain ⟨hoff, hts⟩ := hunused cd hcd hsz
    refine ⟨?_, ?_, ?_⟩
    · rw [hch cd hcd, chunkFor, if_neg (by omega)]
    · calc cd.location = ⟨cd.location.offset, cd.location.size⟩ := rfl
        _ = ⟨0, 0⟩ := by rw [hoff, hsz]
    · calc cd.timestamp = ⟨cd.timestamp.timestamp⟩ := rfl
        _ = ⟨0⟩ := by rw [hts]
  have h0s : ∀ cd ∈ s, cd.location.size = 0 →
      cd.chunk.compressedData = [] ∧ cd.location = ⟨0, 0⟩ ∧ cd.timestamp = ⟨0⟩ :=
    fun cd hcd => h0 cd (hperm.mem_iff.mp hcd)
  have hslice : ∀ cd ∈ s, 0 < cd.location.size →
      cd.chunk.compressedData
        = (file.drop (cd.location.offset * 4096)).take (cd.location.size * 4096) := by
    intro cd hcd hsz
    rw [hch cd (hperm.mem_iff.mp hcd), chunkFor, if_pos hsz]
  have hpos : ∀ cd ∈ s, 0 < cd.location.size →
      cd.chunk.compressedData.length = cd.location.size * 4096 := by
    intro cd hcd hsz
    have hb := packedFrom_bounds s 2 hpacked cd hcd hsz
    rw [htot] at hb
    rw [hslice cd hcd hsz]
    simp only [List.length_take, List.length_drop]
    omega
  have hcompact := compactGo_fixed s 2 hpacked h0s hpos
  have hflat := flatten_payloads file s 2 hpacked
    (fun cd hcd hsz => (h0s cd hcd hsz).1) hslice (by rw [htot]; omega)
  have hpair : slots.Pairwise fun a b => a.index < b.index := by
    have hmapidx := region_chunk_data_indices file
    rw [← hslots] at hmapidx
    have h2 : List.Pairwise (fun a b => a < b) (slots.map fun cd => cd.index) := by
      rw [hmapidx]
      exact List.pairwise_lt_range' 0 1024
    exact List.pairwise_map.mp h2
  have hsortidx : sortByIndex s = slots :=
    sorted_perm_eq_strict (sortByIndex s) slots
      ((List.perm_insertionSort _ s).trans hperm)
      (List.sorted_insertionSort _ s) hpair
  have hloc_tab : (slots.map fun cd => cd.location.to_bytes).flatten = file.take 4096 := by
    have hmm : slots.map (fun cd => cd.location.to_bytes)
        = ((slots.map fun cd => cd.location).map SerializableLocation.to_bytes) := by
      rw [List.map_map]
      rfl
    rw [hmm, hslots, region_chunk_data_locations file, List.map_map]
    have hid : (parseRecords 4 1024 file).map
        (SerializableLocation.to_bytes ∘ SerializableLocation.from_bytes)
        = parseRecords 4 1024 file := by
      rw [List.map_congr_left fun sl hsl => ?_, List.map_id]
      exact SerializableLocation.round_len4 sl
        (parseRecords_mem_length 4 1024 file (by omega) sl hsl)
        (fun b hb => hbyte b (parseRecords_mem_mem 4 1024 file sl hsl b hb))
    rw [hid, parseRecords_flatten, show (4 * 1024 : Nat) = 4096 by norm_num]
  have hts_tab : (slots.map fun cd => cd.timestamp.to_bytes).flatten
      = (file.drop 4096).take 4096 := by
    have hmm : slots.map (fun cd => cd.timestamp.to_bytes)
        = ((slots.map fun cd => cd.timestamp).map Timestamp.to_bytes) := by
      rw [List.map_map]
      rfl
    rw [hmm, hslots, region_chunk_data_timestamps file, List.map_map]
    have hid : (parseRecords 4 1024 (file.drop 4096)).map
        (Timestamp.to_bytes ∘ Timestamp.from_bytes)
        = parseRecords 4 1024 (file.drop 4096) := by
      rw [List.map_congr_left fun sl hsl => ?_, List.map_id]
      refine Timestamp.round_length4 sl
        (parseRecords_mem_length 4 1024 (file.drop 4096) (by simp [List.length_drop]; omega) sl hsl)
        (fun b hb => hbyte b ?_)
      exact List.mem_of_mem_drop (parseRecords_mem_mem 4 1024 (file.drop 4096) sl hsl b hb)
    rw [hid, parseRecords_flatten, show (4 * 1024 : Nat) = 4096 by norm_num]
  simp only [Region.to_bytes]
  rw [← hslots, ← hs, hcompact]
  simp only
  rw [hsortidx, hloc_tab, hts_tab, hflat, show (2 * 4096 : Nat) = 8192 by norm_num]
  rw [List.append_assoc, show (8192 : Nat) = 4096 + 4096 by norm_num, ← List.drop_drop,
    List.take_append_drop, List.take_append_drop]

/-! ### Auxiliary lemmas about lists of unused slots -/

theorem emptySlots_map_index (i n : Nat) :
    (emptySlots i n).map (fun cd => cd.index) = List.range' i n := by
  rw [emptySlots, List.map_map]
  exact List.map_id _

theorem emptySlots_pairwise (i n : Nat) :
    (emptySlots i n).Pairwise fun a b => a.index < b.index := by
  refine List.pairwise_map.mp ?_
  rw [emptySlots_map_index]
  exact List.pairwise_lt_range' i n

theorem emptySlots_index_lower (i n : Nat) : ∀ cd ∈ emptySlots i n, i ≤ cd.index := by
  intro cd hcd
  simp only [emptySlots, List.mem_map] at hcd
  obtain ⟨j, hj, rfl⟩ := hcd
  obtain ⟨k, _, rfl⟩ := List.mem_range'.mp hj
  show i ≤ i + 1 * k
  omega

theorem totalSize_append (a b : List ChunkData) :
    totalSize (a ++ b) = totalSize a + totalSize b := by
  simp [totalSize, List.sum_append]

theorem totalSize_emptySlots (i n : Nat) : totalSize (emptySlots i n) = 0 := by
  refine List.sum_eq_zero fun x hx => ?_
  simp only [List.mem_map] at hx
  obtain ⟨cd, hcd, rfl⟩ := hx
  exact (emptySlots_mem i n cd hcd).2.1 ▸ rfl

theorem sortByOffset_emptySlots_front (i n : Nat) (l : List ChunkData) :
    sortByOffset (emptySlots i n ++ l) = emptySlots i n ++ sortByOffset l := by
  refine insertionSort_least_front _ (emptySlots i n) l fun a ha b => ?_
  rw [(emptySlots_mem i n a ha).2.1]
  exact Nat.zero_le _

theorem sortByOffset_emptySlots (i n : Nat) :
    sortByOffset (emptySlots i n) = emptySlots i n := by
  have := sortByOffset_emptySlots_front i n []
  simpa [sortByOffset, List.insertionSort] using this

theorem packedFrom_skip_empty (c : Nat) :
    ∀ (a l : List ChunkData), (∀ cd ∈ a, cd.location.size = 0) →
      packedFrom c (a ++ l) = packedFrom c l
  | [], _, _ => rfl
  | x :: a, l, h => by
    rw [List.cons_append, packedFrom, if_pos (h x (List.mem_cons_self x a))]
    exact packedFrom_skip_empty c a l fun cd hcd => h cd (List.mem_cons_of_mem x hcd)

theorem compactGo_skip_empty (c : Nat) :
    ∀ (a l : List ChunkData),
      (∀ cd ∈ a, cd.chunk.compressedData = [] ∧ cd.location = ⟨0, 0⟩ ∧ cd.timestamp = ⟨0⟩) →
      compactGo c (a ++ l) = (a ++ (compactGo c l).1, (compactGo c l).2)
  | [], l, _ => by simp [compactGo]
  | x :: a, l, h => by
    obtain ⟨hxe, hxl, hxt⟩ := h x (List.mem_cons_self x a)
    rw [List.cons_append, compactGo]
    have hxx : ({ x with location := ⟨0, 0⟩, timestamp := ⟨0⟩ } : ChunkData) = x := by
      cases x
      simp_all
    simp only [Chunk.to_bytes, hxe, List.length_nil, Nat.zero_div, hxx,
      compactGo_skip_empty c a l fun cd hcd => h cd (List.mem_cons_of_mem x hcd)]
    rw [if_pos trivial, List.cons_append]

theorem flatten_replicate_entry (n : Nat) :
    (List.replicate n [(0 : Nat), 0, 0, 0]).flatten = List.replicate (4 * n) 0 := by
  induction n with
  | zero => rfl
  | succ n ih =>
    rw [List.replicate_succ, List.flatten_cons, ih,
      show 4 * (n + 1) = 4 + 4 * n by ring, List.replicate_add]
    rfl

theorem emptySlots_loc_bytes (i n : Nat) :
    ((emptySlots i n).map fun cd => cd.location.to_bytes).flatten
      = List.replicate (4 * n) 0 := by
  rw [emptySlots, List.map_map]
  have hcomp : ((fun cd : ChunkData => cd.location.to_bytes) ∘ fun j =>
      (⟨⟨[]⟩, ⟨0, 0⟩, ⟨0⟩, j⟩ : ChunkData)) = Function.const Nat [(0 : Nat), 0, 0, 0] := by
    funext j
    simp [SerializableLocation.to_bytes, Function.const, Function.comp]
  rw [hcomp, List.map_const, List.length_range', flatten_replicate_entry]

theorem emptySlots_ts_bytes (i n : Nat) :
    ((emptySlots i n).map fun cd => cd.timestamp.to_bytes).flatten
      = List.replicate (4 * n) 0 := by
  rw [emptySlots, List.map_map]
  have hcomp : ((fun cd : ChunkData => cd.timestamp.to_bytes) ∘ fun j =>
      (⟨⟨[]⟩, ⟨0, 0⟩, ⟨0⟩, j⟩ : ChunkData)) = Function.const Nat [(0 : Nat), 0, 0, 0] := by
    funext j
    simp [Timestamp.to_bytes, Function.const, Function.comp]
  rw [hcomp, List.map_const, List.length_range', flatten_replicate_entry]

theorem filter_emptySlots (i n : Nat) :
    (emptySlots i n).filter (fun cd => decide (0 < cd.location.size)) = [] := by
  refine List.filter_eq_nil_iff.mpr fun cd hcd => ?_
  rw [(emptySlots_mem i n cd hcd).2.1]
  simp

theorem parseRecords_zero (s : Nat) (d : Bytes) : parseRecords s 0 d = [] := rfl

theorem packedFrom_emptySlots (c i n : Nat) : packedFrom c (emptySlots i n) = true := by
  have := packedFrom_skip_empty c (emptySlots i n) []
    (fun cd hcd => by rw [(emptySlots_mem i n cd hcd).2.1])
  simpa [packedFrom] using this

theorem zeroFile_len : zeroFile.length = 8192 := by
  rw [zeroFile, List.length_replicate]

theorem parseRecords_all_zeros (rest : Bytes) :
    parseRecords 4 1024 (List.replicate 4096 0 ++ rest) = List.replicate 1024 [0, 0, 0, 0] := by
  have h := parseRecords_zeros 1024 1024 rest (le_refl 1024)
  rw [Nat.sub_self, parseRecords_zero, List.append_nil] at h
  rw [show (4096 : Nat) = 4 * 1024 by norm_num, h]

theorem zeroFile_slots : (Region.from_bytes zeroFile).chunk_data = emptySlots 0 1024 := by
  rw [Region.from_bytes_def]
  have h1 : parseRecords 4 1024 zeroFile = List.replicate 1024 [0, 0, 0, 0] := by
    rw [zeroFile, show (8192 : Nat) = 4096 + 4096 by norm_num, List.replicate_add,
      parseRecords_all_zeros]
  have h2 : parseRecords 4 1024 (zeroFile.drop 4096) = List.replicate 1024 [0, 0, 0, 0] := by
    have hd : zeroFile.drop 4096 = List.replicate 4096 0 ++ [] := by
      rw [zeroFile, List.drop_replicate, List.append_nil]
    rw [hd, parseRecords_all_zeros]
  rw [h1, h2, List.map_replicate, List.map_replicate, List.zip_replicate, Nat.min_self]
  have hpair : (SerializableLocation.from_bytes [0, 0, 0, 0], Timestamp.from_bytes [0, 0, 0, 0])
      = ((⟨0, 0⟩ : SerializableLocation), (⟨0⟩ : Timestamp)) := by
    rw [SerializableLocation.from_bytes, Timestamp.from_bytes]
    norm_num
  rw [hpair, buildChunkData_zeros]

theorem zeroFile_to_bytes : (Region.from_bytes zeroFile).to_bytes = zeroFile := by
  refine region_roundtrip zeroFile (by rw [zeroFile_len]) ?_ ?_ ?_ ?_
  · intro b hb
    rw [zeroFile, List.mem_replicate] at hb
    omega
  · intro cd hcd _
    rw [zeroFile_slots] at hcd
    have h := (emptySlots_mem 0 1024 cd hcd).2
    rw [h.1, h.2]
    exact ⟨rfl, rfl⟩
  · rw [zeroFile_slots, sortByOffset_emptySlots, packedFrom_emptySlots]
  · rw [zeroFile_slots, totalSize_emptySlots, zeroFile_len]

/-! ### The compact single-payload container fileC -/

theorem payloadC_len : payloadC.length = 4096 := by
  rw [payloadC, List.length_append, List.length_replicate]
  norm_num

theorem fileC_grouped : fileC
    = (List.replicate 28 0 ++ [0, 0, 2, 1] ++ List.replicate 4064 0)
      ++ ((List.replicate 28 0 ++ [1, 2, 3, 4] ++ List.replicate 4064 0) ++ payloadC) := by
  rw [fileC, List.append_assoc]

theorem fileC_len : fileC.length = 12288 := by
  rw [fileC_grouped]
  simp only [List.length_append, List.length_replicate, List.length_cons, List.length_nil,
    payloadC_len]

theorem parseRecords_single_entry (e rest : Bytes) (he : e.length = 4) :
    parseRecords 4 1024 (List.replicate 28 0 ++ e ++ List.replicate 4064 0 ++ rest)
      = List.replicate 7 [0, 0, 0, 0] ++ e :: List.replicate 1016 [0, 0, 0, 0] := by
  rw [List.append_assoc, List.append_assoc,
    show (28 : Nat) = 4 * 7 by norm_num,
    parseRecords_zeros 7 1024 _ (by omega),
    show (1024 - 7 : Nat) = 1016 + 1 from rfl,
    parseRecords_cons 4 1016 e _ he,
    show (4064 : Nat) = 4 * 1016 by norm_num,
    parseRecords_zeros 1016 1016 rest (le_refl 1016),
    Nat.sub_self, parseRecords_zero, List.append_nil]

theorem fileC_drop_8192 : fileC.drop 8192 = payloadC := by
  rw [fileC_grouped, ← List.append_assoc]
  refine List.drop_left' ?_
  simp only [List.length_append, List.length_replicate, List.length_cons, List.length_nil]

theorem fileC_drop_4096 : fileC.drop 4096
    = List.replicate 28 0 ++ [1, 2, 3, 4] ++ List.replicate 4064 0 ++ payloadC := by
  rw [fileC_grouped]
  rw [List.drop_left' (by simp only [List.length_append, List.length_replicate,
    List.length_cons, List.length_nil])]

theorem chunkFor_fileC : chunkFor fileC ⟨2, 1⟩ = ⟨payloadC⟩ := by
  rw [chunkFor, if_pos (by decide)]
  rw [show ((⟨2, 1⟩ : SerializableLocation).offset * 4096 : Nat) = 8192 from rfl,
    show ((⟨2, 1⟩ : SerializableLocation).size * 4096 : Nat) = 4096 from rfl,
    fileC_drop_8192, List.take_of_length_le (le_of_eq payloadC_len)]

theorem fileC_slots : (Region.from_bytes fileC).chunk_data
    = emptySlots 0 7
      ++ (⟨⟨payloadC⟩, ⟨2, 1⟩, ⟨16909060⟩, 7⟩ : ChunkData) :: emptySlots 8 1016 := by
  rw [Region.from_bytes_def]
  have hlocs : (parseRecords 4 1024 fileC).map SerializableLocation.from_bytes
      = List.replicate 7 (⟨0, 0⟩ : SerializableLocation)
        ++ (⟨2, 1⟩ : SerializableLocation)
          :: List.replicate 1016 (⟨0, 0⟩ : SerializableLocation) := by
    rw [fileC_grouped, parseRecords_single_entry [0, 0, 2, 1] _ rfl,
      List.map_append, List.map_cons, List.map_replicate, List.map_replicate,
      show SerializableLocation.from_bytes [0, 0, 0, 0] = ⟨0, 0⟩ from by decide,
      show SerializableLocation.from_bytes [0, 0, 2, 1] = ⟨2, 1⟩ from by decide]
  have htss : (parseRecords 4 1024 (fileC.drop 4096)).map Timestamp.from_bytes
      = List.replicate 7 (⟨0⟩ : Timestamp)
        ++ (⟨16909060⟩ : Timestamp) :: List.replicate 1016 (⟨0⟩ : Timestamp) := by
    rw [fileC_drop_4096, parseRecords_single_entry [1, 2, 3, 4] _ rfl,
      List.map_append, List.map_cons, List.map_replicate, List.map_replicate,
      show Timestamp.from_bytes [0, 0, 0, 0] = ⟨0⟩ from by decide,
      show Timestamp.from_bytes [1, 2, 3, 4] = ⟨16909060⟩ from by decide]
  rw [hlocs, htss]
  rw [List.zip_append (by rw [List.length_replicate, List.length_replicate])]
  rw [List.zip_cons_cons]
  rw [List.zip_replicate, List.zip_replicate, Nat.min_self, Nat.min_self]
  rw [buildChunkData_append]
  rw [buildChunkData_zeros]
  rw [buildChunkData]
  rw [chunkFor_fileC]
  rw [buildChunkData_zeros]
  rw [List.length_replicate]

theorem fileC_sorted : sortByOffset (Region.from_bytes fileC).chunk_data
    = emptySlots 0 7 ++ (emptySlots 8 1016
        ++ [(⟨⟨payloadC⟩, ⟨2, 1⟩, ⟨16909060⟩, 7⟩ : ChunkData)]) := by
  rw [fileC_slots, sortByOffset_emptySlots_front]
  refine congrArg (fun t => emptySlots 0 7 ++ t) ?_
  rw [sortByOffset, List.insertionSort]
  have hrest : List.insertionSort (fun a b : ChunkData => a.location.offset ≤ b.location.offset)
      (emptySlots 8 1016) = emptySlots 8 1016 := sortByOffset_emptySlots 8 1016
  rw [hrest]
  refine orderedInsert_last _ (emptySlots 8 1016) _ fun b hb => ?_
  rw [(emptySlots_mem 8 1016 b hb).2.1]
  decide

theorem fileC_total : totalSize (Region.from_bytes fileC).chunk_data = 1 := by
  rw [fileC_slots, totalSize_append, totalSize_cons, totalSize_emptySlots, totalSize_emptySlots]
  rfl

theorem fileC_bytes_lt (b : Nat) (hb : b ∈ fileC) : b < 256 := by
  rw [fileC_grouped, payloadC] at hb
  simp only [List.mem_append, List.mem_cons, List.mem_replicate, List.not_mem_nil] at hb
  rcases hb with ((⟨-, h⟩ | h | h | h | h | h) | ⟨-, h⟩)
    | ((⟨-, h⟩ | h | h | h | h | h) | ⟨-, h⟩)
    | (h | h | h | h | h | h) | ⟨-, h⟩ <;> first | omega | exact absurd h (by simp)

theorem fileC_unused : UnusedZeroed (Region.from_bytes fileC).chunk_data := by
  intro cd hcd hsz
  rw [fileC_slots] at hcd
  simp only [List.mem_append, List.mem_cons] at hcd
  rcases hcd with hcd | hcd | hcd
  · have h := (emptySlots_mem 0 7 cd hcd).2
    rw [h.1, h.2]
    exact ⟨rfl, rfl⟩
  · rw [hcd] at hsz
    exact absurd hsz (by decide)
  · have h := (emptySlots_mem 8 1016 cd hcd).2
    rw [h.1, h.2]
    exact ⟨rfl, rfl⟩

theorem fileC_packed : packedFrom 2 (sortByOffset (Region.from_bytes fileC).chunk_data) = true := by
  rw [fileC_sorted, packedFrom_skip_empty 2 _ _
    (fun cd hcd => by rw [(emptySlots_mem 0 7 cd hcd).2.1]),
    packedFrom_skip_empty 2 _ _
    (fun cd hcd => by rw [(emptySlots_mem 8 1016 cd hcd).2.1])]
  decide

theorem fileC_hlen :
    fileC.length = 8192 + 4096 * totalSize (Region.from_bytes fileC).chunk_data := by
  rw [fileC_total, fileC_len]

theorem fileC_h8 : 8192 ≤ fileC.length := by
  rw [fileC_len]
  norm_num

/-! ### The gapped container fileGap (loadable but not compactly laid out) -/

theorem Region.to_bytes_eq (r : Region) (out : List ChunkData) (chunks : Bytes)
    (h : compactGo 2 (sortByOffset r.chunk_data) = (out, chunks)) :
    r.to_bytes = ((sortByIndex out).map fun cd => cd.location.to_bytes).flatten
      ++ ((sortByIndex out).map fun cd => cd.timestamp.to_bytes).flatten ++ chunks := by
  rw [Region.to_bytes, h]

theorem RegionLike.to_bytes_pair_eq (data out : List ChunkData) (chunks lt tt : Bytes)
    (h : compactGo 2 (sortByOffset data) = (out, chunks))
    (hg : gapFill 2 (sortByIndex out) = (lt, tt)) :
    RegionLike.to_bytes data = lt ++ tt ++ chunks := by
  rw [RegionLike.to_bytes, h]
  show (gapFill 2 (sortByIndex out)).1 ++ (gapFill 2 (sortByIndex out)).2 ++ chunks = _
  rw [hg]

theorem fileGap_len : fileGap.length = 16384 := by
  rw [fileGap, payloadC]
  simp only [List.length_append, List.length_replicate, List.length_cons, List.length_nil]

theorem fileGap_right : fileGap = [0, 0, 3, 1] ++ (List.replicate 4092 0
    ++ (List.replicate 4096 0 ++ (List.replicate 4096 0 ++ payloadC))) := by
  rw [fileGap, List.append_assoc, List.append_assoc, List.append_assoc]

theorem fileGap_drop_4096 : fileGap.drop 4096
    = List.replicate 4096 0 ++ (List.replicate 4096 0 ++ payloadC) := by
  rw [fileGap, List.append_assoc, List.append_assoc]
  refine List.drop_left' ?_
  simp only [List.length_append, List.length_replicate, List.length_cons, List.length_nil]

theorem fileGap_drop_12288 : fileGap.drop 12288 = payloadC := by
  rw [fileGap]
  refine List.drop_left' ?_
  simp only [List.length_append, List.length_replicate, List.length_cons, List.length_nil]

theorem chunkFor_fileGap : chunkFor fileGap ⟨3, 1⟩ = ⟨payloadC⟩ := by
  rw [chunkFor, if_pos (by decide)]
  rw [show ((⟨3, 1⟩ : SerializableLocation).offset * 4096 : Nat) = 12288 from rfl,
    show ((⟨3, 1⟩ : SerializableLocation).size * 4096 : Nat) = 4096 from rfl,
    fileGap_drop_12288, List.take_of_length_le (le_of_eq payloadC_len)]

theorem fileGap_slots : (Region.from_bytes fileGap).chunk_data
    = (⟨⟨payloadC⟩, ⟨3, 1⟩, ⟨0⟩, 0⟩ : ChunkData) :: emptySlots 1 1023 := by
  rw [Region.from_bytes_def]
  have hlocs : (parseRecords 4 1024 fileGap).map SerializableLocation.from_bytes
      = (⟨3, 1⟩ : SerializableLocation) :: List.replicate 1023 (⟨0, 0⟩ : SerializableLocation) := by
    rw [fileGap_right, parseRecords_cons 4 1023 [0, 0, 3, 1] _ rfl,
      show (4092 : Nat) = 4 * 1023 by norm_num,
      parseRecords_zeros 1023 1023 _ (le_refl 1023),
      Nat.sub_self, parseRecords_zero, List.append_nil,
      List.map_cons, List.map_replicate,
      show SerializableLocation.from_bytes [0, 0, 3, 1] = ⟨3, 1⟩ from by decide,
      show SerializableLocation.from_bytes [0, 0, 0, 0] = ⟨0, 0⟩ from by decide]
  have htss : (parseRecords 4 1024 (fileGap.drop 4096)).map Timestamp.from_bytes
      = (⟨0⟩ : Timestamp) :: List.replicate 1023 (⟨0⟩ : Timestamp) := by
    rw [fileGap_drop_4096, parseRecords_all_zeros, List.map_replicate,
      show Timestamp.from_bytes [0, 0, 0, 0] = ⟨0⟩ from by decide,
      show (1024 : Nat) = 1023 + 1 by norm_num, List.replicate_succ]
  rw [hlocs, htss, List.zip_cons_cons, List.zip_replicate, Nat.min_self, buildChunkData,
    chunkFor_fileGap, buildChunkData_zeros]

theorem emptySlots_zeroed (i n : Nat) : ∀ cd ∈ emptySlots i n,
    cd.chunk.compressedData = [] ∧ cd.location = ⟨0, 0⟩ ∧ cd.timestamp = ⟨0⟩ := by
  intro cd hcd
  obtain ⟨h1, h2, h3⟩ := emptySlots_mem i n cd hcd
  exact ⟨by rw [h1], h2, h3⟩

theorem fileGap_sorted : sortByOffset
    ((⟨⟨payloadC⟩, ⟨3, 1⟩, ⟨0⟩, 0⟩ : ChunkData) :: emptySlots 1 1023)
    = emptySlots 1 1023 ++ [(⟨⟨payloadC⟩, ⟨3, 1⟩, ⟨0⟩, 0⟩ : ChunkData)] := by
  rw [sortByOffset, List.insertionSort]
  have hrest : List.insertionSort
      (fun a b : ChunkData => a.location.offset ≤ b.location.offset)
      (emptySlots 1 1023) = emptySlots 1 1023 := sortByOffset_emptySlots 1 1023
  rw [hrest]
  refine orderedInsert_last _ (emptySlots 1 1023) _ fun b hb => ?_
  rw [(emptySlots_mem 1 1023 b hb).2.1]
  decide

theorem fileGap_compact :
    compactGo 2 (emptySlots 1 1023 ++ [(⟨⟨payloadC⟩, ⟨3, 1⟩, ⟨0⟩, 0⟩ : ChunkData)])
      = (emptySlots 1 1023 ++ [(⟨⟨payloadC⟩, ⟨2, 1⟩, ⟨0⟩, 0⟩ : ChunkData)], payloadC) := by
  rw [compactGo_skip_empty 2 (emptySlots 1 1023) _ (emptySlots_zeroed 1 1023)]
  have hone : compactGo 2 [(⟨⟨payloadC⟩, ⟨3, 1⟩, ⟨0⟩, 0⟩ : ChunkData)]
      = ([(⟨⟨payloadC⟩, ⟨2, 1⟩, ⟨0⟩, 0⟩ : ChunkData)], payloadC) := by
    simp [compactGo, Chunk.to_bytes, payloadC_len]
  rw [hone]

theorem fileGap_sortidx : sortByIndex
    (emptySlots 1 1023 ++ [(⟨⟨payloadC⟩, ⟨2, 1⟩, ⟨0⟩, 0⟩ : ChunkData)])
    = (⟨⟨payloadC⟩, ⟨2, 1⟩, ⟨0⟩, 0⟩ : ChunkData) :: emptySlots 1 1023 := by
  refine sorted_perm_eq_strict _ _ ?_ (List.sorted_insertionSort _ _) ?_
  · exact (List.perm_insertionSort _ _).trans
      (List.perm_append_singleton _ (emptySlots 1 1023))
  · refine List.pairwise_cons.mpr ⟨fun b hb => ?_, emptySlots_pairwise 1 1023⟩
    have := emptySlots_index_lower 1 1023 b hb
    show 0 < b.index
    omega

theorem fileGap_to_bytes : (Region.from_bytes fileGap).to_bytes
    = ([0, 0, 2, 1] ++ List.replicate 4092 0)
      ++ ([0, 0, 0, 0] ++ List.replicate 4092 0) ++ payloadC := by
  rw [Region.to_bytes_eq (Region.from_bytes fileGap)
    (emptySlots 1 1023 ++ [(⟨⟨payloadC⟩, ⟨2, 1⟩, ⟨0⟩, 0⟩ : ChunkData)]) payloadC
    (by rw [fileGap_slots, fileGap_sorted, fileGap_compact]), fileGap_sortidx]
  rw [List.map_cons, List.map_cons, List.flatten_cons, List.flatten_cons,
    emptySlots_loc_bytes, emptySlots_ts_bytes,
    show ((⟨⟨payloadC⟩, ⟨2, 1⟩, ⟨0⟩, 0⟩ : ChunkData)).location.to_bytes
      = [0, 0, 2, 1] from by decide,
    show ((⟨⟨payloadC⟩, ⟨2, 1⟩, ⟨0⟩, 0⟩ : ChunkData)).timestamp.to_bytes
      = [0, 0, 0, 0] from by decide,
    show (4 * 1023 : Nat) = 4092 by norm_num]

/-! ### The sparse entities container fileSparse -/

theorem EntitiesFile.from_bytes_eqn (file : Bytes) :
    EntitiesFile.from_bytes file
      = ⟨(buildChunkData file
            (((parseRecords 4 1024 file).map SerializableLocation.from_bytes).zip
              ((parseRecords 4 1024 (file.drop 4096)).map Timestamp.from_bytes)) 0).filter
          fun cd => decide (0 < cd.location.size)⟩ := rfl

theorem fileSparse_grouped : fileSparse
    = (List.replicate 4 0 ++ [0, 0, 2, 1] ++ List.replicate 4088 0)
      ++ ((List.replicate 4 0 ++ [0, 0, 0, 7] ++ List.replicate 4088 0) ++ payloadC) := by
  rw [fileSparse, List.append_assoc]

theorem parseRecords_entry_at_1 (e rest : Bytes) (he : e.length = 4) :
    parseRecords 4 1024 (List.replicate 4 0 ++ e ++ List.replicate 4088 0 ++ rest)
      = [0, 0, 0, 0] :: e :: List.replicate 1022 [0, 0, 0, 0] := by
  rw [List.append_assoc, List.append_assoc,
    show (1024 : Nat) = 1023 + 1 by norm_num,
    parseRecords_cons 4 1023 (List.replicate 4 0) _ (by rw [List.length_replicate]),
    show (1023 : Nat) = 1022 + 1 by norm_num,
    parseRecords_cons 4 1022 e _ he,
    show (4088 : Nat) = 4 * 1022 by norm_num,
    parseRecords_zeros 1022 1022 rest (le_refl 1022),
    Nat.sub_self, parseRecords_zero, List.append_nil]
  rfl

theorem fileSparse_drop_8192 : fileSparse.drop 8192 = payloadC := by
  rw [fileSparse_grouped, ← List.append_assoc]
  refine List.drop_left' ?_
  simp only [List.length_append, List.length_replicate, List.length_cons, List.length_nil]

theorem fileSparse_drop_4096 : fileSparse.drop 4096
    = List.replicate 4 0 ++ [0, 0, 0, 7] ++ List.replicate 4088 0 ++ payloadC := by
  rw [fileSparse_grouped]
  rw [List.drop_left' (by simp only [List.length_append, List.length_replicate,
    List.length_cons, List.length_nil])]

theorem chunkFor_fileSparse : chunkFor fileSparse ⟨2, 1⟩ = ⟨payloadC⟩ := by
  rw [chunkFor, if_pos (by decide)]
  rw [show ((⟨2, 1⟩ : SerializableLocation).offset * 4096 : Nat) = 8192 from rfl,
    show ((⟨2, 1⟩ : SerializableLocation).size * 4096 : Nat) = 4096 from rfl,
    fileSparse_drop_8192, List.take_of_length_le (le_of_eq payloadC_len)]

theorem fileSparse_entity_data : (EntitiesFile.from_bytes fileSparse).entity_data
    = [(⟨⟨payloadC⟩, ⟨2, 1⟩, ⟨7⟩, 1⟩ : ChunkData)] := by
  rw [EntitiesFile.from_bytes_eqn]
  have hlocs : (parseRecords 4 1024 fileSparse).map SerializableLocation.from_bytes
      = (⟨0, 0⟩ : SerializableLocation) :: (⟨2, 1⟩ : SerializableLocation)
          :: List.replicate 1022 (⟨0, 0⟩ : SerializableLocation) := by
    rw [fileSparse_grouped, parseRecords_entry_at_1 [0, 0, 2, 1] _ rfl,
      List.map_cons, List.map_cons, List.map_replicate,
      show SerializableLocation.from_bytes [0, 0, 0, 0] = ⟨0, 0⟩ from by decide,
      show SerializableLocation.from_bytes [0, 0, 2, 1] = ⟨2, 1⟩ from by decide]
  have htss : (parseRecords 4 1024 (fileSparse.drop 4096)).map Timestamp.from_bytes
      = (⟨0⟩ : Timestamp) :: (⟨7⟩ : Timestamp) :: List.replicate 1022 (⟨0⟩ : Timestamp) := by
    rw [fileSparse_drop_4096, parseRecords_entry_at_1 [0, 0, 0, 7] _ rfl,
      List.map_cons, List.map_cons, List.map_replicate,
      show Timestamp.from_bytes [0, 0, 0, 0] = ⟨0⟩ from by decide,
      show Timestamp.from_bytes [0, 0, 0, 7] = ⟨7⟩ from by decide]
  rw [hlocs, htss, List.zip_cons_cons, List.zip_cons_cons, List.zip_replicate, Nat.min_self,
    buildChunkData, buildChunkData, chunkFor_fileSparse, buildChunkData_zeros]
  rw [List.filter_cons, List.filter_cons]
  rw [show (decide (0 < ((⟨chunkFor fileSparse ⟨0, 0⟩, ⟨0, 0⟩, ⟨0⟩, 0⟩ : ChunkData)).location.size))
    = false from rfl]
  rw [show (decide (0 < ((⟨⟨payloadC⟩, ⟨2, 1⟩, ⟨7⟩, 1⟩ : ChunkData)).location.size))
    = true from rfl]
  rw [filter_emptySlots]
  simp

theorem fileSparse_gapFill :
    gapFill 2 [(⟨⟨payloadC⟩, ⟨2, 1⟩, ⟨7⟩, 1⟩ : ChunkData)]
      = ([0, 0, 2, 1] ++ List.replicate 4088 0, [0, 0, 0, 7] ++ List.replicate 4088 0) := by
  simp only [gapFill]
  norm_num [zeroEntries, SerializableLocation.to_bytes, Timestamp.to_bytes]
  decide

theorem fileSparse_to_bytes : (EntitiesFile.from_bytes fileSparse).to_bytes
    = ([0, 0, 2, 1] ++ List.replicate 4088 0)
      ++ ([0, 0, 0, 7] ++ List.replicate 4088 0) ++ payloadC := by
  rw [EntitiesFile.to_bytes, fileSparse_entity_data]
  refine RegionLike.to_bytes_pair_eq _ [(⟨⟨payloadC⟩, ⟨2, 1⟩, ⟨7⟩, 1⟩ : ChunkData)] payloadC _ _
    ?_ ?_
  · rw [show sortByOffset [(⟨⟨payloadC⟩, ⟨2, 1⟩, ⟨7⟩, 1⟩ : ChunkData)]
        = [(⟨⟨payloadC⟩, ⟨2, 1⟩, ⟨7⟩, 1⟩ : ChunkData)] from rfl]
    simp [compactGo, Chunk.to_bytes, payloadC_len]
  · rw [show sortByIndex [(⟨⟨payloadC⟩, ⟨2, 1⟩, ⟨7⟩, 1⟩ : ChunkData)]
        = [(⟨⟨payloadC⟩, ⟨2, 1⟩, ⟨7⟩, 1⟩ : ChunkData)] from rfl]
    exact fileSparse_gapFill

theorem fileSparse_to_bytes_len : (EntitiesFile.from_bytes fileSparse).to_bytes.length = 12280 := by
  rw [fileSparse_to_bytes]
  simp only [List.length_append, List.length_replicate, List.length_cons, List.length_nil,
    payloadC_len]

/-! ### Lemmas about the fast field scan -/

theorem OccursAt_cons_succ (seq : Bytes) (b : Nat) (rest : Bytes) (i : Nat) :
    OccursAt seq (b :: rest) (i + 1) ↔ OccursAt seq rest i := Iff.rfl

theorem findSeq_none_iff (seq : Bytes) :
    ∀ data : Bytes, findSeq seq data = none ↔ ∀ i, ¬OccursAt seq data i
  | [] => by
    rw [findSeq]
    by_cases hs : seq = []
    · subst hs
      simp only [if_pos rfl]
      constructor
      · intro h
        exact absurd h (by simp)
      · intro h
        exact absurd (h 0) (by simp [OccursAt])
    · simp only [if_neg hs]
      constructor
      · intro _ i hocc
        rw [OccursAt, List.drop_nil, List.take_nil] at hocc
        exact hs hocc.symm
      · intro _
        trivial
  | b :: rest => by
    rw [findSeq]
    by_cases hm : (b :: rest).take seq.length = seq
    · simp only [if_pos hm]
      constructor
      · intro h
        exact absurd h (by simp)
      · intro h
        exact absurd (h 0) (by simp [OccursAt, hm])
    · simp only [if_neg hm, Option.map_eq_none']
      rw [findSeq_none_iff seq rest]
      constructor
      · intro h i hocc
        cases i with
        | zero => exact hm hocc
        | succ j => exact h j ((OccursAt_cons_succ seq b rest j).mp hocc)
      · intro h j hocc
        exact h (j + 1) ((OccursAt_cons_succ seq b rest j).mpr hocc)

theorem findSeq_some_spec (seq : Bytes) :
    ∀ (data : Bytes) (i : Nat), findSeq seq data = some i →
      OccursAt seq data i ∧ ∀ j < i, ¬OccursAt seq data j
  | [], i, h => by
    rw [findSeq] at h
    by_cases hs : seq = []
    · rw [if_pos hs] at h
      obtain rfl : i = 0 := by simpa using h.symm
      subst hs
      exact ⟨by simp [OccursAt], by omega⟩
    · rw [if_neg hs] at h
      exact absurd h (by simp)
  | b :: rest, i, h => by
    rw [findSeq] at h
    by_cases hm : (b :: rest).take seq.length = seq
    · rw [if_pos hm] at h
      obtain rfl : i = 0 := by simpa using h.symm
      exact ⟨hm, by omega⟩
    · rw [if_neg hm, Option.map_eq_some'] at h
      obtain ⟨j, hj, rfl⟩ := h
      obtain ⟨hocc, hmin⟩ := findSeq_some_spec seq rest j hj
      refine ⟨(OccursAt_cons_succ seq b rest j).mpr hocc, fun k hk => ?_⟩
      cases k with
      | zero => exact hm
      | succ m =>
        intro hocc2
        exact hmin m (by omega) ((OccursAt_cons_succ seq b rest m).mp hocc2)

theorem fast_get_property_of_none (data name : Bytes) (s : Strategy)
    (hd : findSeq (propSeq name s) data = none) :
    fast_get_property data name s = Except.error PropError.fieldNotFound := by
  rw [fast_get_property, hd]

theorem fast_get_property_of_some (data name : Bytes) (s : Strategy) (i : Nat)
    (hd : findSeq (propSeq name s) data = some i) :
    fast_get_property data name s =
      if ((data.drop (i + (propSeq name s).length)).take s.payload_size).length
          = s.payload_size then
        Except.ok (unpackBE s.signed
          ((data.drop (i + (propSeq name s).length)).take s.payload_size))
      else Except.error PropError.unpackError := by
  rw [fast_get_property, hd]

/-! ### The compaction pass satisfies the specification of 4.5 step 3 -/

theorem compactGo_spec : ∀ (l : List ChunkData) (c : Nat),
    (∀ cd ∈ l, cd.chunk.compressedData.length % 4096 = 0) →
    (∀ cd ∈ (compactGo c l).1,
      (cd.chunk.compressedData = [] → cd.location = ⟨0, 0⟩ ∧ cd.timestamp = ⟨0⟩) ∧
      (cd.chunk.compressedData ≠ [] →
        cd.location.size * 4096 = cd.chunk.compressedData.length))
    ∧ contiguousFrom c (compactGo c l).1 = true
    ∧ (compactGo c l).2 = ((compactGo c l).1.map fun cd => cd.chunk.compressedData).flatten
  | [], c, _ => by
    refine ⟨by simp [compactGo], ?_, by simp [compactGo]⟩
    rw [show (compactGo c []).1 = [] from rfl, contiguousFrom]
  | x :: l, c, h => by
    have hx := h x (List.mem_cons_self x l)
    have hlrest : ∀ cd ∈ l, cd.chunk.compressedData.length % 4096 = 0 :=
      fun cd hcd => h cd (List.mem_cons_of_mem x hcd)
    rw [compactGo]
    by_cases hz : x.chunk.to_bytes.length / 4096 = 0
    · have hempty : x.chunk.compressedData = [] := by
        rw [Chunk.to_bytes] at hz
        refine List.length_eq_zero.mp ?_
        omega
      obtain ⟨ih1, ih2, ih3⟩ := compactGo_spec l c hlrest
      simp only [if_pos hz]
      refine ⟨?_, ?_, ?_⟩
      · intro cd hcd
        rcases List.mem_cons.mp hcd with rfl | hcd
        · exact ⟨fun _ => ⟨rfl, rfl⟩, fun hne => absurd hempty hne⟩
        · exact ih1 cd hcd
      · rw [contiguousFrom]
        simp only [hempty]
        rw [if_pos trivial]
        exact ih2
      · rw [ih3, List.map_cons, List.flatten_cons]
        simp [hempty]
    · have hpos : 4096 ≤ x.chunk.compressedData.length := by
        rw [Chunk.to_bytes] at hz
        omega
      obtain ⟨ih1, ih2, ih3⟩ := compactGo_spec l (c + x.chunk.to_bytes.length / 4096) hlrest
      simp only [if_neg hz]
      have hne : x.chunk.compressedData ≠ [] := by
        intro hnil
        rw [hnil] at hpos
        simp at hpos
      refine ⟨?_, ?_, ?_⟩
      · intro cd hcd
        rcases List.mem_cons.mp hcd with rfl | hcd
        · refine ⟨fun hempty => absurd hempty hne, fun _ => ?_⟩
          show x.chunk.to_bytes.length / 4096 * 4096 = x.chunk.compressedData.length
          rw [Chunk.to_bytes]
          omega
        · exact ih1 cd hcd
      · rw [contiguousFrom, if_neg hne]
        refine (Bool.and_eq_true _ _).mpr ⟨by simp, ih2⟩
      · rw [ih3, List.map_cons, List.flatten_cons]
        rfl

/-! ### Claims -/

/-- C1. Idempotent repacking: a loadable container already in this engine's own
compaction layout (used slots, in offset order, packed contiguously from sector
2 with no gaps; unused slots with offset 0, size 0 and timestamp 0; the payload
region exactly covering the declared sectors) serializes back to the exact
input bytes after a trim with an always-false predicate. -/
theorem claim_C1_idempotent_repacking (file : Bytes)
    (h8 : 8192 ≤ file.length)
    (hbyte : ∀ b ∈ file, b < 256)
    (hunused : UnusedZeroed (Region.from_bytes file).chunk_data)
    (hpacked : packedFrom 2 (sortByOffset (Region.from_bytes file).chunk_data) = true)
    (hlen : file.length = 8192 + 4096 * totalSize (Region.from_bytes file).chunk_data) :
    ((Region.from_bytes file).trim fun _ => false).to_bytes = file := by
  rw [Region.trim_no_match _ _ fun cd _ => rfl]
  exact region_roundtrip file h8 hbyte hunused hpacked hlen

/-- Witness for C1 at the concrete compact container `fileC` (slot 7 populated
at offset 2, size 1). -/
theorem claim_C1_witness :
    ((Region.from_bytes fileC).trim fun _ => false).to_bytes = fileC :=
  claim_C1_idempotent_repacking fileC fileC_h8 fileC_bytes_lt fileC_unused fileC_packed
    fileC_hlen

/-- C2 (code bug). The entities container `fileSparse` has exactly one
in-memory record, at index 1, yet `RegionLike.to_bytes` emits only 12280
bytes: each table gets 1023 four-byte entries (4092 bytes) instead of the
claimed 1024 entries (4096 bytes), because the gap-fill loop starts
`previous = 2` and adds no leading zero entries for index 0. -/
theorem claim_C2_table_shape_bug :
    (EntitiesFile.from_bytes fileSparse).entity_data
      = [(⟨⟨payloadC⟩, ⟨2, 1⟩, ⟨7⟩, 1⟩ : ChunkData)]
    ∧ (EntitiesFile.from_bytes fileSparse).to_bytes.length = 12280 :=
  ⟨fileSparse_entity_data, fileSparse_to_bytes_len⟩

/-- C3 (code bug). Saving an empty container (serialized length 8192 ≤ 8192)
writes nothing but also removes nothing: a file previously present at the
output path is still there afterwards (the code only logs "Deleting"). -/
theorem claim_C3_no_delete :
    Region.save_to_file (Region.from_bytes zeroFile) fs0 0 0 = some [42] := by
  have hlen : (Region.from_bytes zeroFile).to_bytes.length = 8192 := by
    rw [zeroFile_to_bytes, zeroFile_len]
  rw [Region.save_to_file]
  simp only [hlen]
  norm_num [fs0]

/-- C4 counterexample. `fileGap` is a loadable container (one well-formed
payload at offset 3, sector 2 unused): trimming with an always-false predicate
leaves `dirty = false`, but serialization relocates the payload to sector 2 and
produces 12288 bytes instead of the original 16384 — not byte-identical. -/
theorem claim_C4_counterexample :
    ((Region.from_bytes fileGap).trim fun _ => false).dirty = false
    ∧ ((Region.from_bytes fileGap).trim fun _ => false).to_bytes ≠ fileGap := by
  rw [Region.trim_no_match _ _ fun cd _ => rfl]
  refine ⟨rfl, fun hcontra => ?_⟩
  have hlen := congrArg List.length hcontra
  rw [fileGap_to_bytes, fileGap_len] at hlen
  simp only [List.length_append, List.length_replicate, List.length_cons, List.length_nil,
    payloadC_len] at hlen
  omega

/-- C4 (amended). For containers already in own-compaction layout (the same
hypotheses as C1), trimming with any predicate that matches no slot leaves
`dirty = false` and serializes to the exact input bytes. For general loadable
containers only the `dirty = false` half survives; byte-identity fails on
non-compact layouts (see the counterexample). -/
theorem claim_C4_no_match_passthrough (file : Bytes) (cond : Chunk → Bool)
    (h8 : 8192 ≤ file.length)
    (hbyte : ∀ b ∈ file, b < 256)
    (hunused : UnusedZeroed (Region.from_bytes file).chunk_data)
    (hpacked : packedFrom 2 (sortByOffset (Region.from_bytes file).chunk_data) = true)
    (hlen : file.length = 8192 + 4096 * totalSize (Region.from_bytes file).chunk_data)
    (hnomatch : ∀ cd ∈ (Region.from_bytes file).chunk_data, cond cd.chunk = false) :
    ((Region.from_bytes file).trim cond).dirty = false
    ∧ ((Region.from_bytes file).trim cond).to_bytes = file := by
  rw [Region.trim_no_match _ _ hnomatch]
  exact ⟨rfl, region_roundtrip file h8 hbyte hunused hpacked hlen⟩

theorem fileC_nomatch : ∀ cd ∈ (Region.from_bytes fileC).chunk_data,
    (fun c : Chunk => decide (c.compressedData.length = 5)) cd.chunk = false := by
  intro cd hcd
  rw [fileC_slots] at hcd
  simp only [List.mem_append, List.mem_cons] at hcd
  rcases hcd with hcd | hcd | hcd
  · rw [(emptySlots_mem 0 7 cd hcd).1]
    decide
  · rw [hcd]
    show decide (payloadC.length = 5) = false
    rw [payloadC_len]
    decide
  · rw [(emptySlots_mem 8 1016 cd hcd).1]
    decide

/-- Witness for the amended C4 at `fileC` with a predicate matching no slot. -/
theorem claim_C4_witness :
    ((Region.from_bytes fileC).trim fun c => decide (c.compressedData.length = 5)).dirty = false
    ∧ ((Region.from_bytes fileC).trim
        fun c => decide (c.compressedData.length = 5)).to_bytes = fileC :=
  claim_C4_no_match_passthrough fileC _ fileC_h8 fileC_bytes_lt fileC_unused fileC_packed
    fileC_hlen fileC_nomatch

/-- C5. The serialization's compaction pass: slots are visited sorted by
current offset (the sort is a permutation, sorted, and stable: slots with equal
offsets keep their relative order, expressed by filter-invariance); starting
the cursor at sector 2, every slot whose payload is empty gets location
(0, 0) and timestamp 0, every slot with a non-empty payload gets
`size * 4096 = payload length`, the surviving payloads occupy contiguous
sectors from 2 in visit order, and the payload accumulator is their
concatenation. -/
theorem claim_C5_compaction_spec (l : List ChunkData)
    (h : ∀ cd ∈ l, cd.chunk.compressedData.length % 4096 = 0) :
    List.Sorted (fun a b => a.location.offset ≤ b.location.offset) (sortByOffset l)
    ∧ (sortByOffset l).Perm l
    ∧ (∀ v, (sortByOffset l).filter (fun cd => decide (cd.location.offset = v))
        = l.filter fun cd => decide (cd.location.offset = v))
    ∧ (∀ cd ∈ (compactGo 2 (sortByOffset l)).1,
        (cd.chunk.compressedData = [] → cd.location = ⟨0, 0⟩ ∧ cd.timestamp = ⟨0⟩) ∧
        (cd.chunk.compressedData ≠ [] →
          cd.location.size * 4096 = cd.chunk.compressedData.length))
    ∧ contiguousFrom 2 (compactGo 2 (sortByOffset l)).1 = true
    ∧ (compactGo 2 (sortByOffset l)).2
        = ((compactGo 2 (sortByOffset l)).1.map fun cd => cd.chunk.compressedData).flatten := by
  have hs : ∀ cd ∈ sortByOffset l, cd.chunk.compressedData.length % 4096 = 0 :=
    fun cd hcd => h cd ((List.perm_insertionSort _ l).mem_iff.mp hcd)
  obtain ⟨h1, h2, h3⟩ := compactGo_spec (sortByOffset l) 2 hs
  exact ⟨List.sorted_insertionSort _ l, List.perm_insertionSort _ l,
    fun v => sortByOffset_filter l v, h1, h2, h3⟩

/-- Witness for C5 at a concrete two-slot list (one 4096-byte payload at
offset 9, one empty slot). -/
theorem claim_C5_witness :
    List.Sorted (fun a b => a.location.offset ≤ b.location.offset)
      (sortByOffset [(⟨⟨payloadC⟩, ⟨9, 1⟩, ⟨3⟩, 0⟩ : ChunkData), ⟨⟨[]⟩, ⟨0, 0⟩, ⟨0⟩, 1⟩])
    ∧ (sortByOffset [(⟨⟨payloadC⟩, ⟨9, 1⟩, ⟨3⟩, 0⟩ : ChunkData), ⟨⟨[]⟩, ⟨0, 0⟩, ⟨0⟩, 1⟩]).Perm
        [(⟨⟨payloadC⟩, ⟨9, 1⟩, ⟨3⟩, 0⟩ : ChunkData), ⟨⟨[]⟩, ⟨0, 0⟩, ⟨0⟩, 1⟩]
    ∧ (∀ v, (sortByOffset [(⟨⟨payloadC⟩, ⟨9, 1⟩, ⟨3⟩, 0⟩ : ChunkData),
          ⟨⟨[]⟩, ⟨0, 0⟩, ⟨0⟩, 1⟩]).filter (fun cd => decide (cd.location.offset = v))
        = [(⟨⟨payloadC⟩, ⟨9, 1⟩, ⟨3⟩, 0⟩ : ChunkData),
            ⟨⟨[]⟩, ⟨0, 0⟩, ⟨0⟩, 1⟩].filter fun cd => decide (cd.location.offset = v))
    ∧ (∀ cd ∈ (compactGo 2 (sortByOffset [(⟨⟨payloadC⟩, ⟨9, 1⟩, ⟨3⟩, 0⟩ : ChunkData),
          ⟨⟨[]⟩, ⟨0, 0⟩, ⟨0⟩, 1⟩])).1,
        (cd.chunk.compressedData = [] → cd.location = ⟨0, 0⟩ ∧ cd.timestamp = ⟨0⟩) ∧
        (cd.chunk.compressedData ≠ [] →
          cd.location.size * 4096 = cd.chunk.compressedData.length))
    ∧ contiguousFrom 2 (compactGo 2 (sortByOffset [(⟨⟨payloadC⟩, ⟨9, 1⟩, ⟨3⟩, 0⟩ : ChunkData),
        ⟨⟨[]⟩, ⟨0, 0⟩, ⟨0⟩, 1⟩])).1 = true
    ∧ (compactGo 2 (sortByOffset [(⟨⟨payloadC⟩, ⟨9, 1⟩, ⟨3⟩, 0⟩ : ChunkData),
          ⟨⟨[]⟩, ⟨0, 0⟩, ⟨0⟩, 1⟩])).2
        = ((compactGo 2 (sortByOffset [(⟨⟨payloadC⟩, ⟨9, 1⟩, ⟨3⟩, 0⟩ : ChunkData),
            ⟨⟨[]⟩, ⟨0, 0⟩, ⟨0⟩, 1⟩])).1.map fun cd => cd.chunk.compressedData).flatten :=
  claim_C5_compaction_spec
    [(⟨⟨payloadC⟩, ⟨9, 1⟩, ⟨3⟩, 0⟩ : ChunkData), ⟨⟨[]⟩, ⟨0, 0⟩, ⟨0⟩, 1⟩]
    (List.forall_mem_cons.mpr
      ⟨by simp [payloadC_len], List.forall_mem_cons.mpr ⟨by simp, by simp⟩⟩)

/-- C6 (code bug). `EntitiesFile.reset_chunk` always fails: the probe object
construction calls `SerializableLocation()` and `Timestamp()` without their
required arguments, raising TypeError before any removal can happen, for every
entities container and every index. -/
theorem claim_C6_reset_chunk_always_fails (e : EntitiesFile) (i : Nat) :
    EntitiesFile.reset_chunk e i = none := rfl

/-- C10 counterexample. Encoding the location with offset 2^32 does not
silently truncate to `offset mod 2^24` (which would be the 4 zero bytes of
`⟨0, 0⟩`): `struct.pack(">IB", ...)` raises instead, modelled as `none`. -/
theorem claim_C10_counterexample :
    SerializableLocation.to_bytesChecked ⟨4294967296, 0⟩ = none
    ∧ SerializableLocation.to_bytesChecked ⟨4294967296, 0⟩
        ≠ some (SerializableLocation.to_bytes ⟨4294967296 % 16777216, 0⟩) := by
  refine ⟨?_, ?_⟩ <;> decide

/-- C10 (amended). Decoding 4 bytes then re-encoding reproduces the bytes
exactly; decode after encode is the identity for offset < 2^24 and
size < 2^8; encoding an offset in [2^24, 2^32) silently drops the high byte
(keeps offset mod 2^24); an offset ≥ 2^32 makes the encoder fail
(struct.error) instead of truncating. -/
theorem claim_C10_location_codec :
    (∀ b0 b1 b2 b3 : Nat, b0 < 256 → b1 < 256 → b2 < 256 → b3 < 256 →
      (SerializableLocation.from_bytes [b0, b1, b2, b3]).to_bytesChecked
        = some [b0, b1, b2, b3])
    ∧ (∀ off sz : Nat, off < 16777216 → sz < 256 →
      SerializableLocation.to_bytesChecked ⟨off, sz⟩
          = some (SerializableLocation.to_bytes ⟨off, sz⟩)
        ∧ SerializableLocation.from_bytes (SerializableLocation.to_bytes ⟨off, sz⟩)
          = ⟨off, sz⟩)
    ∧ (∀ off sz : Nat, 16777216 ≤ off → off < 4294967296 → sz < 256 →
      SerializableLocation.to_bytesChecked ⟨off, sz⟩
        = some (SerializableLocation.to_bytes ⟨off % 16777216, sz⟩))
    ∧ (∀ off sz : Nat, 4294967296 ≤ off →
      SerializableLocation.to_bytesChecked ⟨off, sz⟩ = none) := by
  refine ⟨?_, ?_, ?_, ?_⟩
  · intro b0 b1 b2 b3 h0 h1 h2 h3
    rw [SerializableLocation.to_bytesChecked, if_pos ?_,
      SerializableLocation.to_bytes_from_bytes b0 b1 b2 b3 h0 h1 h2 h3]
    constructor
    · show b0 * 65536 + b1 * 256 + b2 < 4294967296
      omega
    · show b3 < 256
      omega
  · intro off sz hoff hsz
    constructor
    · rw [SerializableLocation.to_bytesChecked,
        if_pos (show off < 4294967296 ∧ sz < 256 from ⟨by omega, hsz⟩)]
    · rw [SerializableLocation.to_bytes, SerializableLocation.from_bytes]
      simp only [List.getD_cons_zero, List.getD_cons_succ]
      refine congrArg₂ SerializableLocation.mk ?_ ?_ <;> omega
  · intro off sz h1 h2 hsz
    rw [SerializableLocation.to_bytesChecked,
      if_pos (show off < 4294967296 ∧ sz < 256 from ⟨by omega, hsz⟩)]
    refine congrArg some ?_
    rw [SerializableLocation.to_bytes, SerializableLocation.to_bytes]
    simp only [List.cons.injEq, and_true]
    omega
  · intro off sz h
    rw [SerializableLocation.to_bytesChecked,
      if_neg (show ¬(off < 4294967296 ∧ sz < 256) from by omega)]

/-- Witness for the amended C10: a decode/encode round trip at [1,2,3,4] and a
silent truncation at offset 2^24 + 1. -/
theorem claim_C10_witness :
    (SerializableLocation.from_bytes [1, 2, 3, 4]).to_bytesChecked = some [1, 2, 3, 4]
    ∧ SerializableLocation.to_bytesChecked ⟨16777217, 9⟩
        = some (SerializableLocation.to_bytes ⟨1, 9⟩) := by
  refine ⟨claim_C10_location_codec.1 1 2 3 4 (by norm_num) (by norm_num) (by norm_num)
    (by norm_num), ?_⟩
  have h := claim_C10_location_codec.2.2.1 16777217 9 (by norm_num) (by norm_num) (by norm_num)
  rw [h, show (16777217 % 16777216 : Nat) = 1 by norm_num]
theorem clearedBy_eq_true (c : Chunk) (ps : List (Chunk → Bool)) :
    clearedBy c ps = true ↔
      c.compressedData ≠ [] ∧ (chunkTrims c ps).compressedData = [] := by
  rw [clearedBy, Bool.and_eq_true, Bool.not_eq_true', List.isEmpty_eq_false,
    List.isEmpty_iff]

/-- Claim C7, dirty-flag correctness: starting from a freshly loaded container
(`dirty = false`), after any sequence of trim calls `dirty = true` if and only
if some slot's payload transitioned from non-empty to empty over that
sequence. -/
theorem claim_C7_dirty_iff (r : Region) (ps : List (Chunk → Bool))
    (h : r.dirty = false) :
    (r.trimAll ps).dirty = true ↔
      ∃ (i : Nat) (cd cdf : ChunkData), r.chunk_data[i]? = some cd ∧
        (r.trimAll ps).chunk_data[i]? = some cdf ∧
        cd.chunk.compressedData ≠ [] ∧ cdf.chunk.compressedData = [] := by
  rw [Region.trimAll_dirty, h, Bool.false_or, List.any_eq_true]
  constructor
  · rintro ⟨cd, hcd, hcl⟩
    obtain ⟨hne, hemp⟩ := (clearedBy_eq_true cd.chunk ps).mp hcl
    obtain ⟨i, hi⟩ := List.mem_iff_getElem?.mp hcd
    refine ⟨i, cd, { cd with chunk := chunkTrims cd.chunk ps }, hi, ?_, hne, hemp⟩
    rw [Region.trimAll_chunk_data, List.getElem?_map, hi, Option.map_some']
  · rintro ⟨i, cd, cdf, hi, hif, hne, hemp⟩
    refine ⟨cd, List.getElem?_mem hi, (clearedBy_eq_true cd.chunk ps).mpr ⟨hne, ?_⟩⟩
    rw [Region.trimAll_chunk_data, List.getElem?_map, hi, Option.map_some',
      Option.some.injEq] at hif
    rw [← hif] at hemp
    exact hemp

theorem claim_C7_witness :
    (Region.trimAll ⟨[⟨⟨[5]⟩, ⟨2, 1⟩, ⟨1⟩, 0⟩], false⟩ [fun _ => true]).dirty = true ↔
      ∃ (i : Nat) (cd cdf : ChunkData),
        (⟨[⟨⟨[5]⟩, ⟨2, 1⟩, ⟨1⟩, 0⟩], false⟩ : Region).chunk_data[i]? = some cd ∧
        (Region.trimAll ⟨[⟨⟨[5]⟩, ⟨2, 1⟩, ⟨1⟩, 0⟩], false⟩
          [fun _ => true]).chunk_data[i]? = some cdf ∧
        cd.chunk.compressedData ≠ [] ∧ cdf.chunk.compressedData = [] :=
  claim_C7_dirty_iff ⟨[⟨⟨[5]⟩, ⟨2, 1⟩, ⟨1⟩, 0⟩], false⟩ [fun _ => true] rfl

/-- Claim C8, monotonic clearing: a slot whose payload is empty is left
untouched by `conditional_reset` under every predicate (the predicate branch is
never reached), and the slot survives any subsequent sequence of trim calls
unchanged. -/
theorem claim_C8_monotonic_clearing (r : Region) (ps : List (Chunk → Bool))
    (i : Nat) (cd : ChunkData) (hcd : r.chunk_data[i]? = some cd)
    (hempty : cd.chunk.compressedData = []) :
    (∀ cond : Chunk → Bool, cd.chunk.conditional_reset cond = (cd.chunk, false)) ∧
      (r.trimAll ps).chunk_data[i]? = some cd := by
  refine ⟨fun cond => Chunk.conditional_reset_empty cd.chunk cond hempty, ?_⟩
  rw [Region.trimAll_chunk_data, List.getElem?_map, hcd, Option.map_some']
  have he : { cd with chunk := chunkTrims cd.chunk ps } = cd := by
    rw [chunkTrims_empty ps cd.chunk hempty]
  exact congrArg some he

theorem claim_C8_witness :
    (∀ cond : Chunk → Bool, (⟨[]⟩ : Chunk).conditional_reset cond = (⟨[]⟩, false)) ∧
      (Region.trimAll ⟨[⟨⟨[]⟩, ⟨0, 0⟩, ⟨0⟩, 0⟩], false⟩
        [fun _ => true]).chunk_data[0]? = some ⟨⟨[]⟩, ⟨0, 0⟩, ⟨0⟩, 0⟩ :=
  claim_C8_monotonic_clearing ⟨[⟨⟨[]⟩, ⟨0, 0⟩, ⟨0⟩, 0⟩], false⟩ [fun _ => true] 0
    ⟨⟨[]⟩, ⟨0, 0⟩, ⟨0⟩, 0⟩ rfl rfl

/-- Claim C9, fast field scan: `fast_get_property` fails with the
"field not found" error exactly when the pattern
`type_id || big_endian_u16(name_len) || name` occurs nowhere in the stream; at
the first occurrence, when enough bytes follow, it decodes the next
`payload_size` bytes big-endian (signed per the strategy); and the payload
widths are 1 (byte), 4 (32-bit int), 8 (64-bit long, read unsigned),
4 (32-bit float) and 8 (64-bit double). -/
theorem claim_C9_fast_scan (data name : Bytes) (s : Strategy) (i : Nat) :
    (fast_get_property data name s = Except.error PropError.fieldNotFound ↔
      ∀ j, ¬OccursAt (propSeq name s) data j)
    ∧ (OccursAt (propSeq name s) data i →
        (∀ j < i, ¬OccursAt (propSeq name s) data j) →
        (propSeq name s).length + i + s.payload_size ≤ data.length →
        fast_get_property data name s =
          Except.ok (unpackBE s.signed
            ((data.drop (i + (propSeq name s).length)).take s.payload_size)))
    ∧ BYTE_STRATEGY.payload_size = 1 ∧ INT_STRATEGY.payload_size = 4
    ∧ LONG_STRATEGY.payload_size = 8 ∧ LONG_STRATEGY.signed = false
    ∧ FLOAT_STRATEGY.payload_size = 4 ∧ DOUBLE_STRATEGY.payload_size = 8 := by
  refine ⟨?_, ?_, rfl, rfl, rfl, rfl, rfl, rfl⟩
  · constructor
    · intro h
      rw [← findSeq_none_iff]
      cases hd : findSeq (propSeq name s) data with
      | none => rfl
      | some j =>
        rw [fast_get_property_of_some data name s j hd] at h
        split at h
        · exact Except.noConfusion h
        · exact absurd h (by simp)
    · intro h
      exact fast_get_property_of_none data name s ((findSeq_none_iff _ _).mpr h)
  · intro hocc hmin hlen
    cases hd : findSeq (propSeq name s) data with
    | none => exact absurd hocc ((findSeq_none_iff _ _).mp hd i)
    | some j =>
      obtain ⟨hoccj, hminj⟩ := findSeq_some_spec _ _ _ hd
      have hij : j = i := by
        rcases Nat.lt_trichotomy j i with hlt | heq | hgt
        · exact absurd hoccj (hmin j hlt)
        · exact heq
        · exact absurd hocc (hminj i hgt)
      subst hij
      have hslice :
          ((data.drop (j + (propSeq name s).length)).take s.payload_size).length
            = s.payload_size := by
        rw [List.length_take, List.length_drop]
        omega
      rw [fast_get_property_of_some data name s j hd, if_pos hslice]

theorem claim_C9_witness :
    fast_get_property [9, 3, 0, 1, 65, 0, 0, 1, 2] [65] INT_STRATEGY
      = Except.ok 258 := by
  have h := (claim_C9_fast_scan [9, 3, 0, 1, 65, 0, 0, 1, 2] [65] INT_STRATEGY 1).2.1
    (by decide) (by decide) (by decide)
  rw [h]
  rfl
